/-
Verification of core kernel components of the rust-os-tutorial repository.

Shallow embedding notes:
* `u64` values are modelled as `Nat`; where the Rust code can wrap or
  saturate, the embedding makes that explicit (`wsub64`, `satAdd64`) and
  theorems carry the bounds under which both agree.
* `nodit::NoditMap`/`NoditSet` interval maps are modelled as sorted lists of
  disjoint inclusive intervals (`PhysMap`, `VirtSet`); well-formedness is the
  `IntervalsWF` predicate below.
* `crossbeam_queue::ArrayQueue` is modelled as a list plus a fixed capacity;
  `push` fails (drops the incoming element) when the queue is full, and
  `force_push` evicts the oldest element, exactly as crossbeam documents.
* The `bincode` standard configuration with little-endian fixed-int encoding
  is modelled byte-by-byte for the concrete input/output types of the
  syscalls defined in `src/common`.
-/
import Mathlib

namespace RustOsTutorial

/-! ## Physical memory types (src/kernel/src/memory/physical_memory.rs) -/

inductive KernelMemoryUsageType where
  | pageTables
  | globalAllocatorHeap
  deriving DecidableEq, Repr

inductive UserModeMemoryUsageType where
  | pageTables
  | elf
  | stack
  | heap
  deriving DecidableEq, Repr

inductive MemoryType where
  | usable
  | usedByLimine
  | usedByKernel (t : KernelMemoryUsageType)
  | usedByUserMode (t : UserModeMemoryUsageType)
  deriving DecidableEq, Repr

/-! ## Bounded byte queue (crossbeam_queue::ArrayQueue)

`ArrayQueue::push` attempts to push an element; if the queue is full the
element is returned back as an error, so the queue is unchanged and the
incoming (newest) element is lost.  `ArrayQueue::force_push` replaces the
oldest element when full. -/

structure ArrayQueue where
  cap : Nat
  items : List Nat
  deriving DecidableEq, Repr

namespace ArrayQueue

/-- `ArrayQueue::push`: appends unless the queue is full. -/
def push (q : ArrayQueue) (x : Nat) : ArrayQueue :=
  if q.items.length = q.cap then q else { q with items := q.items ++ [x] }

/-- `ArrayQueue::force_push`: appends, evicting the oldest element if full. -/
def force_push (q : ArrayQueue) (x : Nat) : ArrayQueue :=
  if q.items.length = q.cap then { q with items := q.items.tail ++ [x] }
  else { q with items := q.items ++ [x] }

/-- `ArrayQueue::pop`: removes and returns the element at the front. -/
def pop (q : ArrayQueue) : Option (Nat × ArrayQueue) :=
  match q.items with
  | [] => none
  | x :: rest => some (x, { q with items := rest })

/-- Popping repeatedly, as `SyscallReadKeyboardHandler` does slot by slot. -/
def popAll : ArrayQueue → List Nat × ArrayQueue
  | ⟨cap, []⟩ => ([], ⟨cap, []⟩)
  | ⟨cap, x :: rest⟩ =>
    let r := popAll ⟨cap, rest⟩
    (x :: r.1, r.2)

end ArrayQueue

/-! ## Task and event streams (src/kernel/src/task.rs) -/

inductive EventStreamSource where
  | ps2Keyboard
  | ps2Mouse
  deriving DecidableEq, Repr

structure EventStream where
  source : EventStreamSource
  queue : ArrayQueue
  /-- Event happened, but syscall wait event was not called -/
  pending_event : Bool
  deriving DecidableEq, Repr

/-- `TaskState`: in the Waiting case the kernel keeps, among other things, a
pointer/length view into the user event array (`events_slice`).  The
interrupt handler reads the array through that view, so the waiting state is
modelled as carrying the current contents of the user array. -/
inductive TaskState where
  | running
  | waiting (userArray : List Nat)
  deriving DecidableEq, Repr

/-- The fields of `Task` that `ps2_interrupt_handler` reads and writes.
`event_streams` is a `BTreeMap<u64, EventStream>`, iterated in ascending key
order; it is modelled as an association list sorted by key. -/
structure Ps2Task where
  state : TaskState
  event_streams : List (Nat × EventStream)
  deriving DecidableEq, Repr

/-! ## PS/2 interrupt handler (src/kernel/src/ps2_interrupt_handler.rs) -/

/-- What the handler does after releasing the locks: either restore the
interrupted context, or restore the saved syscall frame via `SYSRETQ` with
the given seven output words. -/
inductive Ps2Action where
  | restoreInterrupted
  | restoreSyscall (output : List Nat)
  deriving DecidableEq, Repr

structure Ps2Result where
  task : Ps2Task
  /-- The contents of the user event array after the handler ran
  (meaningful only when the task was waiting). -/
  userArray : List Nat
  action : Ps2Action
  deriving DecidableEq, Repr

/-- `SyscallWaitUntilEvent::encode_output(&count)`: the output type is `u64`,
so bincode writes the eight little-endian bytes of `count` into the first of
the seven output words and leaves the rest zero. -/
def encodeWaitOutputWords (count : Nat) : List Nat :=
  [count % 2 ^ 64, 0, 0, 0, 0, 0, 0]

/-- The body of `ps2_interrupt_handler` after reading the data byte from port
0x60 and signalling end-of-interrupt.  `data` is the byte read. -/
def ps2_interrupt_handler (task : Ps2Task) (ps2_source : EventStreamSource)
    (data : Nat) : Ps2Result :=
  match task.state with
  | .running =>
    { task :=
        { state := .running
          event_streams := task.event_streams.map fun (id, es) =>
            (id, if es.source = ps2_source then
              { es with queue := es.queue.push data, pending_event := true }
            else es) }
      userArray := []
      action := .restoreInterrupted }
  | .waiting userArray =>
    -- input_events = events.iter().copied().collect::<BTreeSet<_>>();
    -- then for each stream of matching source: push the byte, set
    -- pending_event = true, and if its id is in input_events overwrite
    -- events[count] with the id and increment count.  Only the final state
    -- and the action depend on whether count > 0.
    let delivered := task.event_streams.filterMap fun (id, es) =>
      if es.source = ps2_source ∧ id ∈ userArray then some id else none
    let streams' := task.event_streams.map fun (id, es) =>
      (id, if es.source = ps2_source then
        { es with queue := es.queue.push data, pending_event := true }
      else es)
    let userArray' := delivered ++ userArray.drop delivered.length
    { task :=
        { state := if delivered.length > 0 then .running else .waiting userArray
          event_streams := streams' }
      userArray := userArray'
      action := if delivered.length > 0 then
          .restoreSyscall (encodeWaitOutputWords delivered.length)
        else .restoreInterrupted }

/-! ## NMI handler states and the panic handler
(src/kernel/src/nmi_handler_states.rs, src/kernel/src/panic_handler.rs) -/

inductive NmiHandlerState where
  /-- If this CPU receives an NMI, it will probably cause a triple fault -/
  | nmiHandlerNotSet
  /-- If this CPU receives an NMI, the kernel's NMI handler function will be called -/
  | nmiHandlerSet
  /-- If you see this while trying to set the NMI, just call the NMI handler now -/
  | kernelPanicked
  deriving DecidableEq, Repr

/-- `NMI_HANDLER_STATES`: a `BTreeMap<u32, AtomicNmiHandlerState>` keyed by
local-APIC id, modelled as an association list. -/
abbrev NmiStates := List (Nat × NmiHandlerState)

structure PanicResult where
  states : NmiStates
  /-- Local-APIC ids that were sent an NMI, in loop order. -/
  nmisSent : List Nat
  deriving DecidableEq, Repr

/-- The peer-signalling loop of `rust_panic`, entered when this is the first
panic (`DID_PANIC` compare-exchange succeeded) and both the CPU-local data
and the local-APIC lock are available (`localApicAvailable`).  Every peer
CPU's state is swapped to `KernelPanicked`; an NMI is sent exactly when the
value before the swap was `NmiHandlerSet`. -/
def rust_panic (firstPanic : Bool) (localApicAvailable : Bool)
    (ownLapicId : Nat) (states : NmiStates) : PanicResult :=
  if firstPanic ∧ localApicAvailable then
    { states := states.map fun (id, st) =>
        if id ≠ ownLapicId then (id, .kernelPanicked) else (id, st)
      nmisSent := states.filterMap fun (id, st) =>
        if id ≠ ownLapicId ∧ st = .nmiHandlerSet then some id else none }
  else
    { states := states, nmisSent := [] }

/-! ## User-buffer permission validation in syscall handlers
(src/kernel/src/syscall_handlers/wait_until_event.rs,
 src/kernel/src/syscall_handlers/keyboard.rs,
 src/kernel/src/syscall_handlers/log.rs) -/

/-- `VirtualMemoryPermissions` (src/kernel/src/task.rs); read is always
granted. -/
structure VirtualMemoryPermissions where
  write : Bool
  execute : Bool
  deriving DecidableEq, Repr

/-- `Task::mapped_virtual_memory`: `NoditMap<u64, Interval<u64>,
VirtualMemoryPermissions>`, a map of disjoint inclusive intervals. -/
abbrev TaskMem := List (Nat × Nat × VirtualMemoryPermissions)

def U64MAX : Nat := 2 ^ 64 - 1

/-- `u64::saturating_add` -/
def satAdd64 (a b : Nat) : Nat := min (a + b) U64MAX

/-- The intervals of `m` overlapping the inclusive interval `[lo, hi]`
(`NoditMap::overlapping`). -/
def overlapping (m : TaskMem) (lo hi : Nat) : TaskMem :=
  m.filter fun (s, e, _) => decide (s ≤ hi) && decide (lo ≤ e)

/-- The permission check of `SyscallWaitUntilEventHandler`: every interval of
the task map overlapping `ie(ptr, ptr.saturating_add(len))` (half-open, so
the inclusive range is `[ptr, ptr+len-1]` when it does not saturate) must
have the write permission; otherwise the handler bails out into
termination. -/
def waitUntilEventPermissionCheck (m : TaskMem) (ptr len : Nat) : Bool :=
  (overlapping m ptr (satAdd64 ptr len - 1)).all fun (_, _, p) => p.write

/-- Outcome of a syscall handler body. -/
inductive HandlerAction where
  | terminate
  | ret (value : Nat)
  deriving DecidableEq, Repr

/-- `SyscallReadKeyboardHandler::handle_decoded_syscall`: with a non-empty
buffer it requires a keyboard subscription and requires every interval
overlapping `[ptr, ptr.saturating_add(len-1)]` to be writable, then drains
the queue into the buffer slot by slot and returns the number of bytes
copied; a zero-length buffer immediately returns 0.  The updated keyboard
queue is returned alongside. -/
def readKeyboardHandler (keyboard : Option ArrayQueue) (m : TaskMem)
    (ptr len : Nat) : HandlerAction × Option ArrayQueue :=
  if len > 0 then
    match keyboard with
    | some queue =>
      let is_valid := (overlapping m ptr (satAdd64 ptr (len - 1))).all
        fun (_, _, p) => p.write
      if is_valid then
        let drained := queue.popAll
        let copied := min len drained.1.length
        (.ret copied, some { queue with items := queue.items.drop copied })
      else (.terminate, some queue)
    | none => (.terminate, none)
  else (.ret 0, keyboard)

/-- Outcome of the `Log` syscall handler body. -/
inductive LogAction where
  | terminate
  | retOk
  | retInvalidString
  deriving DecidableEq, Repr

/-- The `Task` of the chapter containing `SyscallLogHandler` tracks
`mapped_virtual_memory` as a `NoditSet<u64, Interval<u64>>` (no permission
values). -/
abbrev TaskMemSet := List (Nat × Nat)

/-- `NoditSet::contains_interval`: the whole inclusive interval is covered
by the set. -/
def containsInterval (m : TaskMemSet) (lo hi : Nat) : Bool :=
  (List.range' lo (hi + 1 - lo)).all fun x =>
    m.any fun p => decide (p.1 ≤ x) && decide (x ≤ p.2)

/-- `SyscallLogHandler::handle_decoded_syscall`: a non-empty message must be
entirely contained in the task's mapped virtual memory, then the bytes are
decoded as UTF-8 (validity is the `messageIsUtf8` input here, since message
bytes are not part of the modelled state); a zero-length message returns
`Ok` immediately. -/
def logHandler (m : TaskMemSet) (ptr len : Nat) (messageIsUtf8 : Bool) :
    LogAction :=
  if len > 0 then
    if containsInterval m ptr (ptr + (len - 1)) then
      if messageIsUtf8 then .retOk else .retInvalidString
    else .terminate
  else .retOk

/-! ## Theorems for claims C4, C5, C6, C9, C10 -/

/-- The ids delivered by the PS/2 handler to a waiting task: ids of streams
whose source matches, in stream-iteration order, restricted to ids present
in the saved user array. -/
def deliveredIds (task : Ps2Task) (src : EventStreamSource)
    (ua : List Nat) : List Nat :=
  task.event_streams.filterMap fun (id, es) =>
    if es.source = src ∧ id ∈ ua then some id else none

/-- Claim C4 as stated: on a PS/2 interrupt in state Waiting, each matching
stream id from the saved user array is written into the user array in the
order encountered, the delivered streams' `pending_event` is set to *false*,
and if at least one id was delivered the task is set back to Running and
resumed via SYSRETQ with output equal to the delivered count. -/
def ClaimC4 : Prop :=
  ∀ (task : Ps2Task) (src : EventStreamSource) (data : Nat) (ua : List Nat),
    task.state = .waiting ua →
    (task.event_streams.map Prod.fst).Nodup →
    (ps2_interrupt_handler task src data).userArray.take
        (deliveredIds task src ua).length = deliveredIds task src ua ∧
    (∀ p ∈ (ps2_interrupt_handler task src data).task.event_streams,
        p.1 ∈ deliveredIds task src ua → p.2.pending_event = false) ∧
    (deliveredIds task src ua ≠ [] →
      (ps2_interrupt_handler task src data).task.state = .running ∧
      (ps2_interrupt_handler task src data).action =
        .restoreSyscall (encodeWaitOutputWords (deliveredIds task src ua).length))

/-- C4 counterexample: with one keyboard stream (id 5) and saved array [5],
a keyboard interrupt delivers id 5 but leaves the stream's `pending_event`
*true* (the handler sets it to true, not false). -/
theorem c4_pending_event_counterexample : ¬ ClaimC4 := by
  intro h
  have h5 := h { state := .waiting [5]
                 event_streams := [(5, { source := .ps2Keyboard
                                         queue := { cap := 64, items := [] }
                                         pending_event := false })] }
    .ps2Keyboard 30 [5] rfl (by decide)
  have hfalse := h5.2.1
    (5, { source := .ps2Keyboard
          queue := { cap := 64, items := [30] }
          pending_event := true })
    (by decide) (by decide)
  simp at hfalse

/-- C4 amended: the behaviour is as the claim states except that the handler
sets `pending_event` of every matching stream to *true* (it never clears the
flag); every matching stream also gets the data byte pushed onto its queue,
non-matching streams are untouched, and when nothing is delivered the task
stays Waiting and the interrupted context is restored. -/
theorem c4_amended_waiting_delivery (task : Ps2Task) (src : EventStreamSource)
    (data : Nat) (ua : List Nat) (hw : task.state = .waiting ua)
    (_hkeys : (task.event_streams.map Prod.fst).Nodup) :
    (ps2_interrupt_handler task src data).userArray =
      deliveredIds task src ua ++ ua.drop (deliveredIds task src ua).length ∧
    (∀ p ∈ task.event_streams, p.2.source = src →
      (p.1, { p.2 with queue := p.2.queue.push data, pending_event := true })
        ∈ (ps2_interrupt_handler task src data).task.event_streams) ∧
    (∀ p ∈ task.event_streams, p.2.source ≠ src →
      p ∈ (ps2_interrupt_handler task src data).task.event_streams) ∧
    (deliveredIds task src ua ≠ [] →
      (ps2_interrupt_handler task src data).task.state = .running ∧
      (ps2_interrupt_handler task src data).action =
        .restoreSyscall (encodeWaitOutputWords (deliveredIds task src ua).length)) ∧
    (deliveredIds task src ua = [] →
      (ps2_interrupt_handler task src data).task.state = .waiting ua ∧
      (ps2_interrupt_handler task src data).action = .restoreInterrupted) := by
  have hred : ps2_interrupt_handler task src data =
      { task :=
          { state := if (deliveredIds task src ua).length > 0 then .running
              else .waiting ua
            event_streams := task.event_streams.map fun (id, es) =>
              (id, if es.source = src then
                { es with queue := es.queue.push data, pending_event := true }
              else es) }
        userArray := deliveredIds task src ua ++
          ua.drop (deliveredIds task src ua).length
        action := if (deliveredIds task src ua).length > 0 then
            .restoreSyscall (encodeWaitOutputWords (deliveredIds task src ua).length)
          else .restoreInterrupted } := by
    simp only [ps2_interrupt_handler, hw, deliveredIds]
  rw [hred]
  refine ⟨rfl, ?_, ?_, ?_, ?_⟩
  · intro p hp hsrc
    simp only [List.mem_map]
    exact ⟨p, hp, by obtain ⟨a, b⟩ := p; simp_all⟩
  · intro p hp hsrc
    simp only [List.mem_map]
    exact ⟨p, hp, by obtain ⟨a, b⟩ := p; simp_all⟩
  · intro hne
    have hd : (deliveredIds task src ua).length > 0 :=
      List.length_pos.mpr hne
    simp only [hd, if_pos]
    exact ⟨by trivial, by trivial⟩
  · intro he
    rw [he]
    simp only [List.length_nil, gt_iff_lt, Nat.lt_irrefl, if_false]
    exact ⟨by trivial, by trivial⟩

/-- Closed instance of `c4_amended_waiting_delivery` at a concrete task. -/
theorem c4_amended_waiting_delivery_witness :
    let task : Ps2Task :=
      { state := .waiting [5]
        event_streams := [(5, { source := .ps2Keyboard
                                queue := { cap := 64, items := [] }
                                pending_event := false })] }
    (ps2_interrupt_handler task .ps2Keyboard 30).userArray = [5] ∧
    (ps2_interrupt_handler task .ps2Keyboard 30).task.state = .running := by
  intro task
  have h := c4_amended_waiting_delivery task .ps2Keyboard 30 [5] rfl (by decide)
  refine ⟨?_, (h.2.2.2.1 (by decide)).1⟩
  have h1 := h.1
  rw [h1]
  decide

/-- C5 (code bug): `ps2_interrupt_handler` pushes incoming bytes with
`ArrayQueue::push`, so on a full 64-byte queue the incoming (newest) byte is
dropped and the queue is left unchanged; the oldest byte stays.  (The
sibling handlers in src/kernel/src/idt use `force_push`, the drop-oldest
behaviour the spec describes.)  A non-full queue appends, and bytes pop
back in FIFO order. -/
theorem c5_push_on_full_queue_drops_newest :
    let q : ArrayQueue := { cap := 64, items := List.range 64 }
    q.push 99 = q ∧ 99 ∉ (q.push 99).items ∧ 0 ∈ (q.push 99).items ∧
    (ArrayQueue.push { cap := 64, items := [30, 31] } 32).items =
      [30, 31, 32] ∧
    (ArrayQueue.popAll { cap := 64, items := [30, 31, 32] }).1 =
      [30, 31, 32] := by
  exact ⟨by decide, by decide, by decide, by decide, by simp [ArrayQueue.popAll]⟩

/-- Every point of `[ptr, ptr+len)` is inside some interval of the task map
that carries the write permission. -/
def FullyCoveredWritable (m : TaskMem) (ptr len : Nat) : Prop :=
  ∀ x, ptr ≤ x → x < ptr + len → ∃ i ∈ m, i.1 ≤ x ∧ x ≤ i.2.1 ∧ i.2.2.write = true

/-- Claim C6 as stated: the WaitUntilEvent and ReadKeyboard handlers proceed
on a buffer of positive length only if the whole range is covered by
writable intervals; any gap or permission shortfall terminates the task. -/
def ClaimC6 : Prop :=
  ∀ (m : TaskMem) (kb : ArrayQueue) (ptr len : Nat), 0 < len →
    (waitUntilEventPermissionCheck m ptr len = true →
      FullyCoveredWritable m ptr len) ∧
    ((readKeyboardHandler (some kb) m ptr len).1 ≠ .terminate →
      FullyCoveredWritable m ptr len)

/-- C6 counterexample: with an empty interval map (the whole buffer is a
gap), both permission checks pass vacuously and ReadKeyboard proceeds,
returning 0 instead of terminating. -/
theorem c6_gap_not_detected_counterexample : ¬ ClaimC6 := by
  intro h
  have h0 := h [] { cap := 64, items := [] } 4096 8 (by norm_num)
  have hcheck : waitUntilEventPermissionCheck [] 4096 8 = true := by decide
  obtain ⟨i, hi, -⟩ := h0.1 hcheck 4096 (le_refl _) (by norm_num)
  exact absurd hi (List.not_mem_nil i)

/-- C6 amended: the handlers terminate on a permission shortfall of an
*overlapping* interval (ReadKeyboard also without a subscription), but an
unmapped gap in the buffer range is not detected: the handlers proceed
whenever every overlapping interval — possibly none — is writable. -/
theorem c6_amended_overlap_only_validation (m : TaskMem) (kb : ArrayQueue)
    (ptr len : Nat) (h : 0 < len) :
    (waitUntilEventPermissionCheck m ptr len = true ↔
      ∀ i ∈ overlapping m ptr (satAdd64 ptr len - 1), i.2.2.write = true) ∧
    ((∀ i ∈ overlapping m ptr (satAdd64 ptr (len - 1)), i.2.2.write = true) →
      (readKeyboardHandler (some kb) m ptr len).1 ≠ .terminate) ∧
    ((∃ i ∈ overlapping m ptr (satAdd64 ptr (len - 1)), i.2.2.write = false) →
      (readKeyboardHandler (some kb) m ptr len).1 = .terminate) := by
  refine ⟨?_, ?_, ?_⟩
  · simp [waitUntilEventPermissionCheck, List.all_eq_true]
  · intro hall
    have hvalid : ((overlapping m ptr (satAdd64 ptr (len - 1))).all
        fun i => i.2.2.write) = true := by
      simp only [List.all_eq_true]
      exact fun i hi => hall i hi
    simp [readKeyboardHandler, h, hvalid]
  · intro ⟨i, hi, hw⟩
    have hvalid : ((overlapping m ptr (satAdd64 ptr (len - 1))).all
        fun i => i.2.2.write) = false := by
      simp only [List.all_eq_false]
      exact ⟨i, hi, by simp [hw]⟩
    simp [readKeyboardHandler, h, hvalid]

/-- Closed instance of `c6_amended_overlap_only_validation`. -/
theorem c6_amended_overlap_only_validation_witness :
    (readKeyboardHandler (some { cap := 64, items := [7] })
      [(0, 0xFFF, { write := true, execute := false })] 0 8).1 ≠ .terminate := by
  exact (c6_amended_overlap_only_validation
    [(0, 0xFFF, { write := true, execute := false })]
    { cap := 64, items := [7] } 0 8 (by norm_num)).2.1 (by decide)

/-- In an association list with distinct keys, a key determines its value. -/
theorem assocNodupKeyUnique {α : Type} {l : List (Nat × α)}
    (h : (l.map Prod.fst).Nodup) {a : Nat} {b c : α}
    (hb : (a, b) ∈ l) (hc : (a, c) ∈ l) : b = c := by
  induction l with
  | nil => cases hb
  | cons p t ih =>
    simp only [List.map_cons, List.nodup_cons] at h
    rcases List.mem_cons.mp hb with hb1 | hb2 <;>
      rcases List.mem_cons.mp hc with hc1 | hc2
    · rw [← hb1] at hc1; exact (Prod.mk.injEq _ _ _ _ ▸ hc1).2.symm
    · exact absurd (List.mem_map.mpr ⟨(a, c), hc2, by rw [← hb1]⟩) h.1
    · exact absurd (List.mem_map.mpr ⟨(a, b), hb2, by rw [← hc1]⟩) h.1
    · exact ih h.2 hb2 hc2

/-- C9: on the first panic, with CPU-local data and the local APIC available,
every peer CPU's state is swapped to `KernelPanicked`, and a peer is sent an
NMI exactly when its prior state was `NmiHandlerSet`; in particular a peer
still in `NmiHandlerNotSet` is never sent an NMI. -/
theorem c9_panic_signalling (states : NmiStates) (own id : Nat)
    (st : NmiHandlerState) (hmem : (id, st) ∈ states) (hpeer : id ≠ own)
    (hkeys : (states.map Prod.fst).Nodup) :
    (∀ p ∈ (rust_panic true true own states).states, p.1 ≠ own →
      p.2 = .kernelPanicked) ∧
    (id, NmiHandlerState.kernelPanicked) ∈ (rust_panic true true own states).states ∧
    (id ∈ (rust_panic true true own states).nmisSent ↔ st = .nmiHandlerSet) := by
  have hrw : rust_panic true true own states =
      { states := states.map fun p =>
          if p.1 ≠ own then (p.1, .kernelPanicked) else (p.1, p.2)
        nmisSent := states.filterMap fun p =>
          if p.1 ≠ own ∧ p.2 = .nmiHandlerSet then some p.1 else none } := by
    simp [rust_panic]
  rw [hrw]
  refine ⟨?_, ?_, ?_⟩
  · intro p hp hne
    simp only [List.mem_map] at hp
    obtain ⟨q, -, hq⟩ := hp
    by_cases h : q.1 ≠ own
    · rw [if_pos h] at hq; simp [← hq]
    · rw [if_neg h] at hq
      simp only [not_not] at h
      exact absurd (by rw [← hq]; exact h) hne
  · simp only [List.mem_map]
    exact ⟨(id, st), hmem, by simp [hpeer]⟩
  · simp only [List.mem_filterMap]
    constructor
    · rintro ⟨⟨a, b⟩, hp, hpr⟩
      by_cases hc : a ≠ own ∧ b = NmiHandlerState.nmiHandlerSet
      · rw [if_pos hc] at hpr
        have ha : a = id := Option.some.inj hpr
        subst ha
        rw [← assocNodupKeyUnique hkeys hp hmem]
        exact hc.2
      · rw [if_neg hc] at hpr
        cases hpr
    · intro hst
      exact ⟨(id, st), hmem, by simp [hpeer, hst]⟩

/-- Closed instance of `c9_panic_signalling`: CPU 0 panics among CPUs
{0 ↦ Set, 1 ↦ Set, 2 ↦ NotSet}; peer 1 gets an NMI, peer 2 does not. -/
theorem c9_panic_signalling_witness :
    let states : NmiStates :=
      [(0, .nmiHandlerSet), (1, .nmiHandlerSet), (2, .nmiHandlerNotSet)]
    (1, NmiHandlerState.kernelPanicked) ∈ (rust_panic true true 0 states).states ∧
    1 ∈ (rust_panic true true 0 states).nmisSent ∧
    2 ∉ (rust_panic true true 0 states).nmisSent := by
  intro states
  have h1 := c9_panic_signalling states 0 1 .nmiHandlerSet (by decide)
    (by decide) (by decide)
  have h2 := c9_panic_signalling states 0 2 .nmiHandlerNotSet (by decide)
    (by decide) (by decide)
  exact ⟨h1.2.1, h1.2.2.mpr rfl, fun hin => by cases h2.2.2.mp hin⟩

/-- C10: a zero-length ReadKeyboard buffer returns 0 bytes copied — without
consulting the interval map and without requiring a keyboard subscription —
and a zero-length Log message returns Ok without any validation; neither
terminates the task. -/
theorem c10_zero_length_buffers_never_terminate :
    (∀ (keyboard : Option ArrayQueue) (m : TaskMem) (ptr : Nat),
      readKeyboardHandler keyboard m ptr 0 = (.ret 0, keyboard)) ∧
    (∀ (m : TaskMemSet) (ptr : Nat) (messageIsUtf8 : Bool),
      logHandler m ptr 0 messageIsUtf8 = .retOk) := by
  exact ⟨fun keyboard m ptr => by simp [readKeyboardHandler],
         fun m ptr u => by simp [logHandler]⟩

/-! ## Syscall codec (src/common/src/syscall.rs)

`bincode` standard configuration with little-endian byte order and fixed-int
encoding.  `encode_input` writes the syscall id into word 0 and the encoded
payload into the 48 zero-initialised bytes of words 1..7;
`try_decode_input` decodes from those 48 bytes (trailing bytes are ignored
by `decode_from_slice`).  `encode_output`/`decode_output` use all 56 bytes
of the seven output words.  Derived enums (and `Result`) are encoded as a
`u32` variant index followed by the payload. -/

/-- Fixed-int little-endian encoding of a `w`-byte unsigned integer. -/
def encUInt : Nat → Nat → List Nat
  | 0, _ => []
  | w + 1, n => n % 256 :: encUInt w (n / 256)

/-- Decoding of a `w`-byte little-endian unsigned integer. -/
def decUInt : Nat → List Nat → Option (Nat × List Nat)
  | 0, l => some (0, l)
  | _ + 1, [] => none
  | w + 1, b :: l => (decUInt w l).map fun p => (b + 256 * p.1, p.2)

def encBool (b : Bool) : List Nat := [if b then 1 else 0]

def decBool : List Nat → Option (Bool × List Nat)
  | 0 :: l => some (false, l)
  | 1 :: l => some (true, l)
  | _ => none

/-- `SliceData` (src/common/src/slice_data.rs): two `u64` fields. -/
structure SliceData where
  pointer : Nat
  len : Nat
  deriving DecidableEq, Repr

def SliceData.wf (s : SliceData) : Prop :=
  s.pointer < 2 ^ 64 ∧ s.len < 2 ^ 64

def encSliceData (s : SliceData) : List Nat :=
  encUInt 8 s.pointer ++ encUInt 8 s.len

def decSliceData (l : List Nat) : Option (SliceData × List Nat) :=
  (decUInt 8 l).bind fun p =>
    (decUInt 8 p.2).map fun q => (⟨p.1, q.1⟩, q.2)

/-- `log::Level`, a five-variant fieldless enum. -/
inductive LogLevel where
  | error | warn | info | debug | trace
  deriving DecidableEq, Repr

def LogLevel.idx : LogLevel → Nat
  | .error => 0 | .warn => 1 | .info => 2 | .debug => 3 | .trace => 4

def encLogLevel (lv : LogLevel) : List Nat := encUInt 4 lv.idx

def decLogLevel (l : List Nat) : Option (LogLevel × List Nat) :=
  (decUInt 4 l).bind fun p =>
    match p.1 with
    | 0 => some (.error, p.2)
    | 1 => some (.warn, p.2)
    | 2 => some (.info, p.2)
    | 3 => some (.debug, p.2)
    | 4 => some (.trace, p.2)
    | _ => none

/-- `SyscallLogInput` (src/common/src/syscall_log.rs). -/
structure SyscallLogInput where
  level : LogLevel
  message : SliceData
  deriving DecidableEq, Repr

def encLogInput (i : SyscallLogInput) : List Nat :=
  encLogLevel i.level ++ encSliceData i.message

def decLogInput (l : List Nat) : Option (SyscallLogInput × List Nat) :=
  (decLogLevel l).bind fun p =>
    (decSliceData p.2).map fun q => (⟨p.1, q.1⟩, q.2)

/-- `SyscallAllocInput` (src/common/src/syscall_alloc.rs): two `NonZeroU64`
fields, encoded as their `u64` value; decoding a zero fails. -/
structure SyscallAllocInput where
  len : Nat
  align : Nat
  deriving DecidableEq, Repr

def SyscallAllocInput.wf (i : SyscallAllocInput) : Prop :=
  0 < i.len ∧ i.len < 2 ^ 64 ∧ 0 < i.align ∧ i.align < 2 ^ 64

def encAllocInput (i : SyscallAllocInput) : List Nat :=
  encUInt 8 i.len ++ encUInt 8 i.align

def decNonZeroU64 (l : List Nat) : Option (Nat × List Nat) :=
  (decUInt 8 l).bind fun p => if p.1 = 0 then none else some p

def decAllocInput (l : List Nat) : Option (SyscallAllocInput × List Nat) :=
  (decNonZeroU64 l).bind fun p =>
    (decNonZeroU64 p.2).map fun q => (⟨p.1, q.1⟩, q.2)

/-- `Result<T, E>` encoding: `u32` variant index (Ok = 0, Err = 1), then the
payload of the variant. -/
def encResult {α ε : Type} (encOk : α → List Nat) (encErr : ε → List Nat) :
    Except ε α → List Nat
  | .ok a => encUInt 4 0 ++ encOk a
  | .error e => encUInt 4 1 ++ encErr e

def decResult {α ε : Type} (decOk : List Nat → Option (α × List Nat))
    (decErr : List Nat → Option (ε × List Nat)) (l : List Nat) :
    Option (Except ε α × List Nat) :=
  (decUInt 4 l).bind fun p =>
    match p.1 with
    | 0 => (decOk p.2).map fun q => (.ok q.1, q.2)
    | 1 => (decErr p.2).map fun q => (.error q.1, q.2)
    | _ => none

/-- `SyscallLogError`: a single-variant fieldless enum. -/
def encLogError : Unit → List Nat := fun _ => encUInt 4 0

def decLogError (l : List Nat) : Option (Unit × List Nat) :=
  (decUInt 4 l).bind fun p =>
    match p.1 with
    | 0 => some ((), p.2)
    | _ => none

/-- `SyscallAllocError`: OutOfVirtualMemory = 0, OutOfPhysicalMemory = 1. -/
inductive SyscallAllocError where
  | outOfVirtualMemory | outOfPhysicalMemory
  deriving DecidableEq, Repr

def encAllocError : SyscallAllocError → List Nat
  | .outOfVirtualMemory => encUInt 4 0
  | .outOfPhysicalMemory => encUInt 4 1

def decAllocError (l : List Nat) : Option (SyscallAllocError × List Nat) :=
  (decUInt 4 l).bind fun p =>
    match p.1 with
    | 0 => some (.outOfVirtualMemory, p.2)
    | 1 => some (.outOfPhysicalMemory, p.2)
    | _ => none

/-- `SyscallSubscribeToMouseError`: a single-variant fieldless enum. -/
def encMouseError : Unit → List Nat := fun _ => encUInt 4 0

def decMouseError (l : List Nat) : Option (Unit × List Nat) :=
  (decUInt 4 l).bind fun p =>
    match p.1 with
    | 0 => some ((), p.2)
    | _ => none

/-- `FrameBufferInfo` (src/common/src/frame_buffer_info.rs). -/
structure FrameBufferInfo where
  width : Nat
  height : Nat
  pitch : Nat
  bits_per_pixel : Nat
  red_mask_size : Nat
  red_mask_shift : Nat
  green_mask_size : Nat
  green_mask_shift : Nat
  blue_mask_size : Nat
  blue_mask_shift : Nat
  deriving DecidableEq, Repr

def FrameBufferInfo.wf (i : FrameBufferInfo) : Prop :=
  i.width < 2 ^ 64 ∧ i.height < 2 ^ 64 ∧ i.pitch < 2 ^ 64 ∧
  i.bits_per_pixel < 2 ^ 16 ∧ i.red_mask_size < 2 ^ 8 ∧
  i.red_mask_shift < 2 ^ 8 ∧ i.green_mask_size < 2 ^ 8 ∧
  i.green_mask_shift < 2 ^ 8 ∧ i.blue_mask_size < 2 ^ 8 ∧
  i.blue_mask_shift < 2 ^ 8

def encFrameBufferInfo (i : FrameBufferInfo) : List Nat :=
  encUInt 8 i.width ++ encUInt 8 i.height ++ encUInt 8 i.pitch ++
  encUInt 2 i.bits_per_pixel ++ encUInt 1 i.red_mask_size ++
  encUInt 1 i.red_mask_shift ++ encUInt 1 i.green_mask_size ++
  encUInt 1 i.green_mask_shift ++ encUInt 1 i.blue_mask_size ++
  encUInt 1 i.blue_mask_shift

def decFrameBufferInfo (l : List Nat) : Option (FrameBufferInfo × List Nat) :=
  (decUInt 8 l).bind fun a =>
  (decUInt 8 a.2).bind fun b =>
  (decUInt 8 b.2).bind fun c =>
  (decUInt 2 c.2).bind fun d =>
  (decUInt 1 d.2).bind fun e =>
  (decUInt 1 e.2).bind fun f =>
  (decUInt 1 f.2).bind fun g =>
  (decUInt 1 g.2).bind fun h =>
  (decUInt 1 h.2).bind fun i =>
  (decUInt 1 i.2).map fun j =>
    (⟨a.1, b.1, c.1, d.1, e.1, f.1, g.1, h.1, i.1, j.1⟩, j.2)

/-- `SyscallTakeFrameBufferOutput` (src/common/src/syscall_frame_buffer.rs). -/
structure SyscallTakeFrameBufferOutput where
  ptr : Nat
  info : FrameBufferInfo
  deriving DecidableEq, Repr

def encTakeFbOutput (o : SyscallTakeFrameBufferOutput) : List Nat :=
  encUInt 8 o.ptr ++ encFrameBufferInfo o.info

def decTakeFbOutput (l : List Nat) :
    Option (SyscallTakeFrameBufferOutput × List Nat) :=
  (decUInt 8 l).bind fun p =>
    (decFrameBufferInfo p.2).map fun q => (⟨p.1, q.1⟩, q.2)

/-- `SyscallTakeFrameBufferError`: five fieldless variants, in declaration
order InUse, NotAvailable, WouldNotBeSecure, OutOfVirtualMemory,
OutOfPhysicalMemory. -/
inductive SyscallTakeFrameBufferError where
  | inUse | notAvailable | wouldNotBeSecure | outOfVirtualMemory
  | outOfPhysicalMemory
  deriving DecidableEq, Repr

def SyscallTakeFrameBufferError.idx : SyscallTakeFrameBufferError → Nat
  | .inUse => 0 | .notAvailable => 1 | .wouldNotBeSecure => 2
  | .outOfVirtualMemory => 3 | .outOfPhysicalMemory => 4

def encTakeFbError (e : SyscallTakeFrameBufferError) : List Nat :=
  encUInt 4 e.idx

def decTakeFbError (l : List Nat) :
    Option (SyscallTakeFrameBufferError × List Nat) :=
  (decUInt 4 l).bind fun p =>
    match p.1 with
    | 0 => some (.inUse, p.2)
    | 1 => some (.notAvailable, p.2)
    | 2 => some (.wouldNotBeSecure, p.2)
    | 3 => some (.outOfVirtualMemory, p.2)
    | 4 => some (.outOfPhysicalMemory, p.2)
    | _ => none

/-- Zero-pad an encoded payload to the size of the register block it is
written into (48 bytes for inputs, 56 bytes for outputs). -/
def padTo (k : Nat) (l : List Nat) : List Nat :=
  l ++ List.replicate (k - l.length) 0

/-- `Syscall::encode_input`: payload bytes of words 1..7. -/
def encodeInputWords {α : Type} (enc : α → List Nat) (i : α) : List Nat :=
  padTo 48 (enc i)

/-- `Syscall::try_decode_input`: decode from the six argument words,
ignoring trailing bytes. -/
def tryDecodeInputWords {α : Type}
    (dec : List Nat → Option (α × List Nat)) (l : List Nat) : Option α :=
  (dec l).map Prod.fst

/-- `Syscall::encode_output`: payload bytes of all seven words. -/
def encodeOutputWords {α : Type} (enc : α → List Nat) (o : α) : List Nat :=
  padTo 56 (enc o)

/-- `Syscall::decode_output` (it unwraps; `some` models success). -/
def decodeOutputWords {α : Type}
    (dec : List Nat → Option (α × List Nat)) (l : List Nat) : Option α :=
  (dec l).map Prod.fst

theorem rtUInt (w n : Nat) (h : n < 256 ^ w) (r : List Nat) :
    decUInt w (encUInt w n ++ r) = some (n, r) := by
  induction w generalizing n r with
  | zero =>
    have : n = 0 := by simpa using h
    simp [this, encUInt, decUInt]
  | succ w ih =>
    have hdiv : n / 256 < 256 ^ w := by
      rw [Nat.div_lt_iff_lt_mul (by norm_num)]
      calc n < 256 ^ (w + 1) := h
        _ = 256 ^ w * 256 := by rw [pow_succ]
    have hsplit : encUInt (w + 1) n ++ r =
        n % 256 :: (encUInt w (n / 256) ++ r) := by simp [encUInt]
    rw [hsplit]
    show (decUInt w (encUInt w (n / 256) ++ r)).map
        (fun p => (n % 256 + 256 * p.1, p.2)) = some (n, r)
    rw [ih (n / 256) hdiv r]
    have : n % 256 + 256 * (n / 256) = n := by omega
    simp [this]

theorem rtBool (b : Bool) (r : List Nat) :
    decBool (encBool b ++ r) = some (b, r) := by
  cases b <;> simp [encBool, decBool]

theorem rtSliceData (s : SliceData) (h : s.wf) (r : List Nat) :
    decSliceData (encSliceData s ++ r) = some (s, r) := by
  obtain ⟨p, n⟩ := s
  obtain ⟨hp, hn⟩ := h
  simp only [encSliceData, decSliceData, List.append_assoc]
  rw [rtUInt 8 p hp, Option.some_bind, rtUInt 8 n hn, Option.map_some']

theorem rtLogLevel (lv : LogLevel) (r : List Nat) :
    decLogLevel (encLogLevel lv ++ r) = some (lv, r) := by
  cases lv <;>
  · simp only [encLogLevel, LogLevel.idx, decLogLevel]
    rw [rtUInt 4 _ (by norm_num)]
    rfl

theorem rtLogInput (i : SyscallLogInput) (h : i.message.wf) (r : List Nat) :
    decLogInput (encLogInput i ++ r) = some (i, r) := by
  obtain ⟨lv, msg⟩ := i
  simp only [encLogInput, decLogInput, List.append_assoc]
  rw [rtLogLevel lv, Option.some_bind, rtSliceData msg h, Option.map_some']

theorem rtAllocInput (i : SyscallAllocInput) (h : i.wf) (r : List Nat) :
    decAllocInput (encAllocInput i ++ r) = some (i, r) := by
  obtain ⟨n, a⟩ := i
  have hn0 : 0 < n := h.1
  have hn : n < 2 ^ 64 := h.2.1
  have ha0 : 0 < a := h.2.2.1
  have ha : a < 2 ^ 64 := h.2.2.2
  have hd1 : decNonZeroU64 (encUInt 8 n ++ (encUInt 8 a ++ r)) =
      some (n, encUInt 8 a ++ r) := by
    simp only [decNonZeroU64]
    rw [rtUInt 8 n hn, Option.some_bind, if_neg (by omega)]
  have hd2 : decNonZeroU64 (encUInt 8 a ++ r) = some (a, r) := by
    simp only [decNonZeroU64]
    rw [rtUInt 8 a ha, Option.some_bind, if_neg (by omega)]
  simp only [encAllocInput, decAllocInput, List.append_assoc]
  rw [hd1, Option.some_bind, hd2, Option.map_some']

/-- `()` encodes to zero bytes. -/
def encUnit : Unit → List Nat := fun _ => []

def decUnit (l : List Nat) : Option (Unit × List Nat) := some ((), l)

theorem rtResult {α ε : Type}
    {encOk : α → List Nat} {decOk : List Nat → Option (α × List Nat)}
    {encErr : ε → List Nat} {decErr : List Nat → Option (ε × List Nat)}
    {POk : α → Prop} {PErr : ε → Prop}
    (hok : ∀ a, POk a → ∀ r, decOk (encOk a ++ r) = some (a, r))
    (herr : ∀ e, PErr e → ∀ r, decErr (encErr e ++ r) = some (e, r))
    (x : Except ε α)
    (hx : match x with | .ok a => POk a | .error e => PErr e) (r : List Nat) :
    decResult decOk decErr (encResult encOk encErr x ++ r) = some (x, r) := by
  cases x with
  | ok a =>
    simp only [encResult, decResult, List.append_assoc]
    rw [rtUInt 4 0 (by norm_num), Option.some_bind]
    show (decOk (encOk a ++ r)).map (fun q => (Except.ok q.1, q.2)) = _
    rw [hok a hx r, Option.map_some']
  | error e =>
    simp only [encResult, decResult, List.append_assoc]
    rw [rtUInt 4 1 (by norm_num), Option.some_bind]
    show (decErr (encErr e ++ r)).map (fun q => (Except.error q.1, q.2)) = _
    rw [herr e hx r, Option.map_some']

theorem rtLogError (e : Unit) (r : List Nat) :
    decLogError (encLogError e ++ r) = some (e, r) := by
  simp only [encLogError, decLogError]
  rw [rtUInt 4 0 (by norm_num)]
  rfl

theorem rtAllocError (e : SyscallAllocError) (r : List Nat) :
    decAllocError (encAllocError e ++ r) = some (e, r) := by
  cases e <;>
  · simp only [encAllocError, decAllocError]
    rw [rtUInt 4 _ (by norm_num)]
    rfl

theorem rtMouseError (e : Unit) (r : List Nat) :
    decMouseError (encMouseError e ++ r) = some (e, r) := by
  simp only [encMouseError, decMouseError]
  rw [rtUInt 4 0 (by norm_num)]
  rfl

theorem rtTakeFbError (e : SyscallTakeFrameBufferError) (r : List Nat) :
    decTakeFbError (encTakeFbError e ++ r) = some (e, r) := by
  cases e <;>
  · simp only [encTakeFbError, SyscallTakeFrameBufferError.idx, decTakeFbError]
    rw [rtUInt 4 _ (by norm_num)]
    rfl

theorem rtFrameBufferInfo (i : FrameBufferInfo) (h : i.wf) (r : List Nat) :
    decFrameBufferInfo (encFrameBufferInfo i ++ r) = some (i, r) := by
  obtain ⟨w, ht, pc, bpp, rs, rh, gs, gh, bs, bh⟩ := i
  obtain ⟨h1, h2, h3, h4, h5, h6, h7, h8, h9, h10⟩ := h
  simp only [encFrameBufferInfo, decFrameBufferInfo, List.append_assoc]
  rw [rtUInt 8 w h1, Option.some_bind, rtUInt 8 ht h2, Option.some_bind,
    rtUInt 8 pc h3, Option.some_bind, rtUInt 2 bpp h4, Option.some_bind,
    rtUInt 1 rs h5, Option.some_bind, rtUInt 1 rh h6, Option.some_bind,
    rtUInt 1 gs h7, Option.some_bind, rtUInt 1 gh h8, Option.some_bind,
    rtUInt 1 bs h9, Option.some_bind, rtUInt 1 bh h10, Option.map_some']

theorem rtTakeFbOutput (o : SyscallTakeFrameBufferOutput)
    (h : o.ptr < 2 ^ 64 ∧ o.info.wf) (r : List Nat) :
    decTakeFbOutput (encTakeFbOutput o ++ r) = some (o, r) := by
  obtain ⟨p, info⟩ := o
  simp only [encTakeFbOutput, decTakeFbOutput, List.append_assoc]
  rw [rtUInt 8 p h.1, Option.some_bind, rtFrameBufferInfo info h.2,
    Option.map_some']

/-- Padding an exact round-trip with trailing zeroes and taking the first
projection recovers the value. -/
theorem decodePadded {α : Type} {dec : List Nat → Option (α × List Nat)}
    {enc : α → List Nat} {a : α}
    (h : ∀ r, dec (enc a ++ r) = some (a, r)) (k : Nat) :
    (dec (padTo k (enc a))).map Prod.fst = some a := by
  unfold padTo
  rw [h]
  rfl

/-- C8: the syscall codec round-trips.  One conjunct per input/output type
of the syscalls declared in `src/common` (`lib.rs`):
inputs — `u64` (Exists), `()` (Exit, TakeFrameBuffer, ReleaseFrameBuffer,
SubscribeToKeyboard, SubscribeToMouse), `SliceData` (ReadKeyboard,
ReadMouse, WaitUntilEvent), `SyscallLogInput` (Log), `SyscallAllocInput`
(Alloc); outputs — `bool` (Exists), `()` (Exit, ReleaseFrameBuffer), `u64`
(SubscribeToKeyboard, ReadKeyboard, ReadMouse, WaitUntilEvent),
`Result<(), SyscallLogError>` (Log), `Result<SliceData, SyscallAllocError>`
(Alloc), `Result<SyscallTakeFrameBufferOutput, SyscallTakeFrameBufferError>`
(TakeFrameBuffer), `Result<u64, SyscallSubscribeToMouseError>`
(SubscribeToMouse). -/
theorem c8_syscall_codec_round_trip :
    -- Exists input: u64
    (∀ n : Nat, n < 2 ^ 64 →
      tryDecodeInputWords (decUInt 8) (encodeInputWords (encUInt 8) n) = some n) ∧
    -- Exit / TakeFrameBuffer / ReleaseFrameBuffer / SubscribeToKeyboard /
    -- SubscribeToMouse input: ()
    (tryDecodeInputWords decUnit (encodeInputWords encUnit ()) = some ()) ∧
    -- ReadKeyboard / ReadMouse / WaitUntilEvent input: SliceData
    (∀ s : SliceData, s.wf →
      tryDecodeInputWords decSliceData (encodeInputWords encSliceData s) = some s) ∧
    -- Log input
    (∀ i : SyscallLogInput, i.message.wf →
      tryDecodeInputWords decLogInput (encodeInputWords encLogInput i) = some i) ∧
    -- Alloc input
    (∀ i : SyscallAllocInput, i.wf →
      tryDecodeInputWords decAllocInput (encodeInputWords encAllocInput i) = some i) ∧
    -- Exists output: bool
    (∀ b : Bool,
      decodeOutputWords decBool (encodeOutputWords encBool b) = some b) ∧
    -- Exit / ReleaseFrameBuffer output: ()
    (decodeOutputWords decUnit (encodeOutputWords encUnit ()) = some ()) ∧
    -- SubscribeToKeyboard / ReadKeyboard / ReadMouse / WaitUntilEvent output: u64
    (∀ n : Nat, n < 2 ^ 64 →
      decodeOutputWords (decUInt 8) (encodeOutputWords (encUInt 8) n) = some n) ∧
    -- Log output: Result<(), SyscallLogError>
    (∀ x : Except Unit Unit,
      decodeOutputWords (decResult decUnit decLogError)
        (encodeOutputWords (encResult encUnit encLogError) x) = some x) ∧
    -- Alloc output: Result<SliceData, SyscallAllocError>
    (∀ x : Except SyscallAllocError SliceData,
      (match x with | .ok s => s.wf | .error _ => True) →
      decodeOutputWords (decResult decSliceData decAllocError)
        (encodeOutputWords (encResult encSliceData encAllocError) x) = some x) ∧
    -- TakeFrameBuffer output
    (∀ x : Except SyscallTakeFrameBufferError SyscallTakeFrameBufferOutput,
      (match x with | .ok o => o.ptr < 2 ^ 64 ∧ o.info.wf | .error _ => True) →
      decodeOutputWords (decResult decTakeFbOutput decTakeFbError)
        (encodeOutputWords (encResult encTakeFbOutput encTakeFbError) x) = some x) ∧
    -- SubscribeToMouse output: Result<u64, SyscallSubscribeToMouseError>
    (∀ x : Except Unit Nat,
      (match x with | .ok n => n < 2 ^ 64 | .error _ => True) →
      decodeOutputWords (decResult (decUInt 8) decMouseError)
        (encodeOutputWords (encResult (encUInt 8) encMouseError) x) = some x) := by
  refine ⟨?_, ?_, ?_, ?_, ?_, ?_, ?_, ?_, ?_, ?_, ?_, ?_⟩
  · exact fun n hn => decodePadded (rtUInt 8 n hn) 48
  · exact decodePadded (fun r => rfl) 48
  · exact fun s hs => decodePadded (rtSliceData s hs) 48
  · exact fun i hi => decodePadded (rtLogInput i hi) 48
  · exact fun i hi => decodePadded (rtAllocInput i hi) 48
  · exact fun b => decodePadded (rtBool b) 56
  · exact decodePadded (fun r => rfl) 56
  · exact fun n hn => decodePadded (rtUInt 8 n hn) 56
  · exact fun x => decodePadded
      (@rtResult Unit Unit encUnit decUnit encLogError decLogError
        (fun _ => True) (fun _ => True) (fun a _ r => rfl)
        (fun e _ r => rtLogError e r) x (by cases x <;> trivial)) 56
  · exact fun x hx => decodePadded
      (@rtResult SliceData SyscallAllocError encSliceData decSliceData
        encAllocError decAllocError SliceData.wf (fun _ => True)
        (fun s hs r => rtSliceData s hs r)
        (fun e _ r => rtAllocError e r) x (by cases x <;> first | exact hx | trivial)) 56
  · exact fun x hx => decodePadded
      (@rtResult SyscallTakeFrameBufferOutput SyscallTakeFrameBufferError
        encTakeFbOutput decTakeFbOutput encTakeFbError decTakeFbError
        (fun o => o.ptr < 2 ^ 64 ∧ o.info.wf) (fun _ => True)
        (fun o ho r => rtTakeFbOutput o ho r)
        (fun e _ r => rtTakeFbError e r) x (by cases x <;> first | exact hx | trivial)) 56
  · exact fun x hx => decodePadded
      (@rtResult Nat Unit (encUInt 8) (decUInt 8) encMouseError decMouseError
        (fun n => n < 2 ^ 64) (fun _ => True)
        (fun n hn r => rtUInt 8 n hn r)
        (fun e _ r => rtMouseError e r) x (by cases x <;> first | exact hx | trivial)) 56

/-- Closed instance of `c8_syscall_codec_round_trip` at concrete values. -/
theorem c8_syscall_codec_round_trip_witness :
    tryDecodeInputWords (decUInt 8) (encodeInputWords (encUInt 8) 0xEA48EA588EACE1D7) =
      some 0xEA48EA588EACE1D7 ∧
    tryDecodeInputWords decSliceData
      (encodeInputWords encSliceData ⟨0x1000, 16⟩) = some ⟨0x1000, 16⟩ ∧
    decodeOutputWords (decResult decSliceData decAllocError)
      (encodeOutputWords (encResult encSliceData encAllocError)
        (.ok ⟨0x2000, 0x1000⟩)) = some (.ok ⟨0x2000, 0x1000⟩) := by
  refine ⟨c8_syscall_codec_round_trip.1 _ (by norm_num), ?_, ?_⟩
  · exact c8_syscall_codec_round_trip.2.2.1 ⟨0x1000, 16⟩ ⟨by norm_num, by norm_num⟩
  · exact c8_syscall_codec_round_trip.2.2.2.2.2.2.2.2.2.1
      (.ok ⟨0x2000, 0x1000⟩) ⟨by norm_num, by norm_num⟩

/-! ## The physical memory interval map
(src/kernel/src/memory/physical_memory.rs)

`PhysicalMemory::map` is a `NoditMap<u64, Interval<u64>, MemoryType>`,
modelled as a list of `(start, endInclusive, type)` triples kept in
ascending order with pairwise-disjoint intervals (`PhysMapWF`). -/

abbrev PhysMap := List (Nat × Nat × MemoryType)

/-- Well-formedness of the interval map: every interval is non-empty
(`start ≤ endInclusive`) and intervals are sorted and pairwise disjoint. -/
def PhysMapWF (m : PhysMap) : Prop :=
  (∀ p ∈ m, p.1 ≤ p.2.1) ∧ m.Pairwise fun p q => p.2.1 < q.1

/-- `u64::next_multiple_of` (for a positive modulus). -/
def nextMultipleOf (n m : Nat) : Nat := ((n + m - 1) / m) * m

/-- The scan of `allocate_frame_with_type`:
`map.iter().find_map(...)` over ascending intervals, returning the aligned
start of the first Usable interval in which an aligned frame of `size`
bytes fits entirely. -/
def findUsableStart (size : Nat) : PhysMap → Option Nat
  | [] => none
  | (s, e, t) :: rest =>
    if t = MemoryType.usable ∧ nextMultipleOf s size + (size - 1) ≤ e then
      some (nextMultipleOf s size)
    else findUsableStart size rest

/-- `NoditMap::cut` restricted to what the callers use: removes the portion
of every interval inside `[a, b]`, keeping the left and right remnants. -/
def cut (a b : Nat) : PhysMap → PhysMap
  | [] => []
  | (s, e, t) :: rest =>
    if e < a ∨ b < s then (s, e, t) :: cut a b rest
    else
      (if s < a then [(s, a - 1, t)] else []) ++
      (if b < e then [(b + 1, e, t)] else []) ++ cut a b rest

/-- `NoditMap::insert_merge_touching_if_values_equal`: inserts `[a, b] ↦ v`
into a map none of whose intervals overlaps `[a, b]` (the callers cut the
range first; on overlap nodit would return an error that the callers
unwrap), merging with a touching neighbour on either side when its value
equals `v`. -/
def insertMergeTIVE (a b : Nat) (v : MemoryType) : PhysMap → PhysMap
  | [] => [(a, b, v)]
  | (s, e, t) :: rest =>
    if e + 1 < a then (s, e, t) :: insertMergeTIVE a b v rest
    else if e + 1 = a ∧ t = v then insertMergeTIVE s b v rest
    else if e + 1 = a then (s, e, t) :: insertMergeTIVE a b v rest
    else if b + 1 = s ∧ t = v then (a, e, v) :: rest
    else (a, b, v) :: (s, e, t) :: rest

/-- `PhysicalMemory::allocate_frame_with_type::<S>(memory_type)`: finds the
first fitting Usable aligned start, cuts that frame's range out of the map
and re-inserts it with the requested type.  Returns the frame start
address and the updated map. -/
def allocate_frame_with_type (size : Nat) (memory_type : MemoryType)
    (m : PhysMap) : Option (Nat × PhysMap) :=
  (findUsableStart size m).map fun a =>
    (a, insertMergeTIVE a (a + (size - 1)) memory_type
          (cut a (a + (size - 1)) m))

/-- `PhysicalMemory::remove_user_mode_memory`: collects the intervals whose
type is `UsedByUserMode(_)`, then cuts each one and re-inserts it as
`Usable`. -/
def remove_user_mode_memory (m : PhysMap) : PhysMap :=
  (m.filterMap fun p =>
    match p.2.2 with
    | .usedByUserMode _ => some (p.1, p.2.1)
    | _ => none).foldl
    (fun acc q => insertMergeTIVE q.1 q.2 .usable (cut q.1 q.2 acc)) m

/-- The memory type recorded for a physical address: the value of the
unique interval containing it. -/
def typeAt (m : PhysMap) (x : Nat) : Option MemoryType :=
  (m.find? fun p => decide (p.1 ≤ x) && decide (x ≤ p.2.1)).map fun p => p.2.2

/-- `p` covers address `x`. -/
def covers (p : Nat × Nat × MemoryType) (x : Nat) : Prop :=
  p.1 ≤ x ∧ x ≤ p.2.1

/-- There is a Usable interval in which the aligned frame `[c, c+size-1]`
fits entirely. -/
def FitsUsable (m : PhysMap) (size c : Nat) : Prop :=
  ∃ p ∈ m, p.2.2 = MemoryType.usable ∧ p.1 ≤ c ∧ c + (size - 1) ≤ p.2.1

/-! ### Arithmetic facts about `next_multiple_of` -/

theorem nextMultipleOf_ge (n : Nat) {k : Nat} (hk : 0 < k) :
    n ≤ nextMultipleOf n k := by
  unfold nextMultipleOf
  have h1 : n + k - 1 < (n + k - 1) / k * k + k := Nat.lt_div_mul_add hk
  omega

theorem nextMultipleOf_mod (n : Nat) (k : Nat) :
    nextMultipleOf n k % k = 0 := Nat.mul_mod_left _ _

theorem nextMultipleOf_le {n c k : Nat} (hk : 0 < k) (hmod : c % k = 0)
    (hle : n ≤ c) : nextMultipleOf n k ≤ c := by
  obtain ⟨j, hj⟩ := Nat.dvd_of_mod_eq_zero hmod
  have hlt : n + k - 1 < (j + 1) * k := by
    have hexp : (j + 1) * k = k * j + k := by ring
    omega
  have hq : (n + k - 1) / k < j + 1 := (Nat.div_lt_iff_lt_mul hk).mpr hlt
  calc nextMultipleOf n k = (n + k - 1) / k * k := rfl
    _ ≤ j * k := Nat.mul_le_mul_right k (Nat.lt_succ_iff.mp hq)
    _ = k * j := Nat.mul_comm _ _
    _ = c := hj.symm

/-! ### Point lookup in a well-formed interval map -/

theorem covers_unique {m : PhysMap}
    (hpair : m.Pairwise fun p q => p.2.1 < q.1) {p q : Nat × Nat × MemoryType}
    (hp : p ∈ m) (hq : q ∈ m) {x : Nat} (hpx : covers p x) (hqx : covers q x) :
    p = q := by
  induction hpair with
  | nil => cases hp
  | cons hrel hpw ih =>
    rcases List.mem_cons.mp hp with rfl | hp' <;>
      rcases List.mem_cons.mp hq with h | hq'
    · rw [h]
    · exfalso; have h1 := hrel q hq'; unfold covers at hpx hqx; omega
    · exfalso; subst h; have h1 := hrel p hp'; unfold covers at hpx hqx; omega
    · exact ih hp' hq'

theorem typeAt_eq_of_mem {m : PhysMap} (hwf : PhysMapWF m)
    {p : Nat × Nat × MemoryType} (hp : p ∈ m) {x : Nat} (hx : covers p x) :
    typeAt m x = some p.2.2 := by
  unfold typeAt
  cases hfind : m.find? fun p => decide (p.1 ≤ x) && decide (x ≤ p.2.1) with
  | none =>
    exfalso
    have := List.find?_eq_none.mp hfind p hp
    simp only [Bool.and_eq_true, decide_eq_true_eq] at this
    exact this ⟨hx.1, hx.2⟩
  | some q =>
    have hqm : q ∈ m := List.mem_of_find?_eq_some hfind
    have hqc : covers q x := by
      have := List.find?_some hfind
      simp only [Bool.and_eq_true, decide_eq_true_eq] at this
      exact this
    rw [covers_unique hwf.2 hp hqm hx hqc]
    rfl

theorem typeAt_eq_none_iff {m : PhysMap} {x : Nat} :
    typeAt m x = none ↔ ∀ p ∈ m, ¬ covers p x := by
  unfold typeAt covers
  rw [Option.map_eq_none', List.find?_eq_none]
  constructor
  · intro h p hp hc
    have := h p hp
    simp only [Bool.and_eq_true, decide_eq_true_eq] at this
    exact this ⟨hc.1, hc.2⟩
  · intro h p hp
    simp only [Bool.and_eq_true, decide_eq_true_eq, not_and]
    intro h1 h2
    exact h p hp ⟨h1, h2⟩

theorem exists_mem_of_typeAt_eq_some {m : PhysMap} {x : Nat} {t : MemoryType}
    (h : typeAt m x = some t) : ∃ p ∈ m, covers p x ∧ p.2.2 = t := by
  unfold typeAt at h
  obtain ⟨q, hfind, hqt⟩ := Option.map_eq_some'.mp h
  refine ⟨q, List.mem_of_find?_eq_some hfind, ?_, hqt⟩
  have := List.find?_some hfind
  simp only [Bool.and_eq_true, decide_eq_true_eq] at this
  exact this

/-! ### Properties of `cut` -/

/-- Every interval of `cut a b m` is disjoint from `[a, b]`, non-empty, and
is a piece of an interval of `m` with the same value. -/
theorem cut_pieces {a b : Nat} {m : PhysMap} (hb : ∀ p ∈ m, p.1 ≤ p.2.1) :
    ∀ p ∈ cut a b m, (p.2.1 < a ∨ b < p.1) ∧ p.1 ≤ p.2.1 ∧
      ∃ q ∈ m, q.1 ≤ p.1 ∧ p.2.1 ≤ q.2.1 ∧ p.2.2 = q.2.2 := by
  induction m with
  | nil => intro p hp; cases hp
  | cons hd rest ih =>
    obtain ⟨s, e, t⟩ := hd
    have hse : s ≤ e := hb (s, e, t) (List.mem_cons_self _ _)
    have hbrest : ∀ p ∈ rest, p.1 ≤ p.2.1 :=
      fun p hp => hb p (List.mem_cons_of_mem _ hp)
    intro p hp
    rw [cut] at hp
    by_cases hcase : e < a ∨ b < s
    · rw [if_pos hcase] at hp
      rcases List.mem_cons.mp hp with rfl | hp'
      · exact ⟨hcase, hse, (s, e, t), List.mem_cons_self _ _,
          le_refl _, le_refl _, rfl⟩
      · obtain ⟨h1, h2, q, hq, h3⟩ := ih hbrest p hp'
        exact ⟨h1, h2, q, List.mem_cons_of_mem _ hq, h3⟩
    · rw [if_neg hcase] at hp
      push_neg at hcase
      simp only [List.mem_append] at hp
      rcases hp with (hp1 | hp2) | hp3
      · by_cases hs : s < a
        · rw [if_pos hs] at hp1
          rw [List.mem_singleton] at hp1
          subst hp1
          refine ⟨Or.inl ?_, ?_, (s, e, t), List.mem_cons_self _ _, ?_, ?_, rfl⟩
          · show a - 1 < a; omega
          · show s ≤ a - 1; omega
          · show s ≤ s; omega
          · show a - 1 ≤ e; omega
        · rw [if_neg hs] at hp1; simp at hp1
      · by_cases he : b < e
        · rw [if_pos he] at hp2
          rw [List.mem_singleton] at hp2
          subst hp2
          refine ⟨Or.inr ?_, ?_, (s, e, t), List.mem_cons_self _ _, ?_, ?_, rfl⟩
          · show b < b + 1; omega
          · show b + 1 ≤ e; omega
          · show s ≤ b + 1; omega
          · show e ≤ e; omega
        · rw [if_neg he] at hp2; simp at hp2
      · obtain ⟨h1, h2, q, hq, h3⟩ := ih hbrest p hp3
        exact ⟨h1, h2, q, List.mem_cons_of_mem _ hq, h3⟩

/-- `cut` preserves sortedness/disjointness. -/
theorem cut_pairwise {a b : Nat} (hab : a ≤ b) {m : PhysMap}
    (hb : ∀ p ∈ m, p.1 ≤ p.2.1)
    (hp : m.Pairwise fun p q => p.2.1 < q.1) :
    (cut a b m).Pairwise fun p q => p.2.1 < q.1 := by
  induction m with
  | nil => exact List.Pairwise.nil
  | cons hd rest ih =>
    obtain ⟨s, e, t⟩ := hd
    have hbrest : ∀ p ∈ rest, p.1 ≤ p.2.1 :=
      fun p hpm => hb p (List.mem_cons_of_mem _ hpm)
    obtain ⟨hrel, hpw⟩ := List.pairwise_cons.mp hp
    have htail := ih hbrest hpw
    have htailrel : ∀ p ∈ cut a b rest, e < p.1 := by
      intro p hpmem
      obtain ⟨-, -, q, hq, hq1, -⟩ := cut_pieces hbrest p hpmem
      have h2 : e < q.1 := hrel q hq
      omega
    rw [cut]
    by_cases hcase : e < a ∨ b < s
    · rw [if_pos hcase]
      exact List.pairwise_cons.mpr ⟨htailrel, htail⟩
    · rw [if_neg hcase]
      push_neg at hcase
      by_cases hs : s < a <;> by_cases he : b < e
      · rw [if_pos hs, if_pos he]
        simp only [List.cons_append, List.nil_append]
        refine List.pairwise_cons.mpr ⟨?_, List.pairwise_cons.mpr ⟨?_, htail⟩⟩
        · intro q hq
          rcases List.mem_cons.mp hq with rfl | hq'
          · show a - 1 < b + 1; omega
          · have := htailrel q hq'
            show a - 1 < q.1; omega
        · intro q hq
          have := htailrel q hq
          show e < q.1; omega
      · rw [if_pos hs, if_neg he]
        simp only [List.cons_append, List.nil_append]
        refine List.pairwise_cons.mpr ⟨?_, htail⟩
        intro q hq
        have := htailrel q hq
        show a - 1 < q.1; omega
      · rw [if_neg hs, if_pos he]
        simp only [List.cons_append, List.nil_append]
        refine List.pairwise_cons.mpr ⟨?_, htail⟩
        intro q hq
        have := htailrel q hq
        show e < q.1; omega
      · rw [if_neg hs, if_neg he]
        simpa using htail

/-- Coverage of points outside `[a, b]` survives `cut`, with the value. -/
theorem cut_covers {a b x : Nat} (hout : ¬(a ≤ x ∧ x ≤ b)) {m : PhysMap}
    {q : Nat × Nat × MemoryType} (hq : q ∈ m) (hqx : covers q x) :
    ∃ p ∈ cut a b m, covers p x ∧ p.2.2 = q.2.2 := by
  induction m with
  | nil => cases hq
  | cons hd rest ih =>
    obtain ⟨s, e, t⟩ := hd
    rw [cut]
    by_cases hcase : e < a ∨ b < s
    · rw [if_pos hcase]
      rcases List.mem_cons.mp hq with rfl | hq'
      · exact ⟨(s, e, t), List.mem_cons_self _ _, hqx, rfl⟩
      · obtain ⟨p, hpmem, hpc⟩ := ih hq'
        exact ⟨p, List.mem_cons_of_mem _ hpmem, hpc⟩
    · rw [if_neg hcase]
      push_neg at hcase
      rcases List.mem_cons.mp hq with rfl | hq'
      · have hx1 : s ≤ x := hqx.1
        have hx2 : x ≤ e := hqx.2
        by_cases hxa : x < a
        · have hs : s < a := by omega
          refine ⟨(s, a - 1, t), ?_, ⟨by show s ≤ x; omega, by show x ≤ a - 1; omega⟩, rfl⟩
          refine List.mem_append.mpr (Or.inl (List.mem_append.mpr (Or.inl ?_)))
          rw [if_pos hs]
          exact List.mem_singleton.mpr rfl
        · have hxb : b < x := by
            rcases not_and_or.mp hout with h | h <;> omega
          have he : b < e := by omega
          refine ⟨(b + 1, e, t), ?_, ⟨by show b + 1 ≤ x; omega, by show x ≤ e; omega⟩, rfl⟩
          refine List.mem_append.mpr (Or.inl (List.mem_append.mpr (Or.inr ?_)))
          rw [if_pos he]
          exact List.mem_singleton.mpr rfl
      · obtain ⟨p, hpmem, hpc⟩ := ih hq'
        exact ⟨p, List.mem_append.mpr (Or.inr hpmem), hpc⟩

/-! ### Properties of `insertMergeTIVE`

All lemmas assume the inserted range overlaps no interval of the map, which
holds at every call site because the range was just cut out. -/

/-- A strict lower bound on all starts is preserved by insertion of a range
starting above it. -/
theorem insert_start_lb {a b c : Nat} {v : MemoryType} {m : PhysMap}
    (hm : ∀ p ∈ m, c < p.1) (ha : c < a) :
    ∀ p ∈ insertMergeTIVE a b v m, c < p.1 := by
  induction m generalizing a with
  | nil =>
    intro p hp
    rw [insertMergeTIVE] at hp
    rcases List.mem_singleton.mp hp with rfl
    exact ha
  | cons hd rest ih =>
    obtain ⟨s, e, t⟩ := hd
    have hs : c < s := hm (s, e, t) (List.mem_cons_self _ _)
    have hmrest : ∀ p ∈ rest, c < p.1 :=
      fun p hp => hm p (List.mem_cons_of_mem _ hp)
    intro p hp
    rw [insertMergeTIVE] at hp
    by_cases hc1 : e + 1 < a
    · rw [if_pos hc1] at hp
      rcases List.mem_cons.mp hp with rfl | hp'
      · exact hs
      · exact ih hmrest ha p hp'
    · rw [if_neg hc1] at hp
      by_cases hc2 : e + 1 = a ∧ t = v
      · rw [if_pos hc2] at hp
        exact ih hmrest hs p hp
      · rw [if_neg hc2] at hp
        by_cases hc3 : e + 1 = a
        · rw [if_pos hc3] at hp
          rcases List.mem_cons.mp hp with rfl | hp'
          · exact hs
          · exact ih hmrest ha p hp'
        · rw [if_neg hc3] at hp
          by_cases hc4 : b + 1 = s ∧ t = v
          · rw [if_pos hc4] at hp
            rcases List.mem_cons.mp hp with rfl | hp'
            · exact ha
            · exact hmrest p hp'
          · rw [if_neg hc4] at hp
            rcases List.mem_cons.mp hp with rfl | hp'
            · exact ha
            · rcases List.mem_cons.mp hp' with rfl | hp2
              · exact hs
              · exact hmrest p hp2

/-- After insertion, every point of `[a, b]` is covered with value `v`. -/
theorem insert_covers_new {a b : Nat} {v : MemoryType} {m : PhysMap}
    (hb : ∀ p ∈ m, p.1 ≤ p.2.1)
    (hpw : m.Pairwise fun p q => p.2.1 < q.1)
    (hdisj : ∀ p ∈ m, p.2.1 < a ∨ b < p.1) (hab : a ≤ b) :
    ∀ x, a ≤ x → x ≤ b →
      ∃ p ∈ insertMergeTIVE a b v m, covers p x ∧ p.2.2 = v := by
  induction m generalizing a with
  | nil =>
    intro x hx1 hx2
    exact ⟨(a, b, v), List.mem_singleton.mpr rfl, ⟨hx1, hx2⟩, rfl⟩
  | cons hd rest ih =>
    obtain ⟨s, e, t⟩ := hd
    have hse : s ≤ e := hb (s, e, t) (List.mem_cons_self _ _)
    have hbrest : ∀ p ∈ rest, p.1 ≤ p.2.1 :=
      fun p hp => hb p (List.mem_cons_of_mem _ hp)
    obtain ⟨hrel, hpwrest⟩ := List.pairwise_cons.mp hpw
    have hdisjrest : ∀ p ∈ rest, p.2.1 < a ∨ b < p.1 :=
      fun p hp => hdisj p (List.mem_cons_of_mem _ hp)
    intro x hx1 hx2
    rw [insertMergeTIVE]
    by_cases hc1 : e + 1 < a
    · rw [if_pos hc1]
      obtain ⟨p, hpm, hpc⟩ := ih hbrest hpwrest hdisjrest hab x hx1 hx2
      exact ⟨p, List.mem_cons_of_mem _ hpm, hpc⟩
    · rw [if_neg hc1]
      by_cases hc2 : e + 1 = a ∧ t = v
      · rw [if_pos hc2]
        have hdisj2 : ∀ p ∈ rest, p.2.1 < s ∨ b < p.1 := by
          intro p hpr
          have h1 : e < p.1 := hrel p hpr
          rcases hdisjrest p hpr with h | h
          · exfalso
            have := hbrest p hpr
            omega
          · exact Or.inr h
        exact ih hbrest hpwrest hdisj2 (by omega) x (by omega) hx2
      · rw [if_neg hc2]
        by_cases hc3 : e + 1 = a
        · rw [if_pos hc3]
          obtain ⟨p, hpm, hpc⟩ := ih hbrest hpwrest hdisjrest hab x hx1 hx2
          exact ⟨p, List.mem_cons_of_mem _ hpm, hpc⟩
        · rw [if_neg hc3]
          by_cases hc4 : b + 1 = s ∧ t = v
          · rw [if_pos hc4]
            refine ⟨(a, e, v), List.mem_cons_self _ _, ⟨hx1, ?_⟩, rfl⟩
            show x ≤ e
            omega
          · rw [if_neg hc4]
            exact ⟨(a, b, v), List.mem_cons_self _ _, ⟨hx1, hx2⟩, rfl⟩

/-- Insertion preserves the coverage (and value) of existing intervals. -/
theorem insert_covers_old {a b : Nat} {v : MemoryType} {m : PhysMap}
    (hb : ∀ p ∈ m, p.1 ≤ p.2.1)
    (hpw : m.Pairwise fun p q => p.2.1 < q.1)
    (hdisj : ∀ p ∈ m, p.2.1 < a ∨ b < p.1) (hab : a ≤ b) :
    ∀ q ∈ m, ∀ x, covers q x →
      ∃ p ∈ insertMergeTIVE a b v m, covers p x ∧ p.2.2 = q.2.2 := by
  induction m generalizing a with
  | nil => intro q hq; cases hq
  | cons hd rest ih =>
    obtain ⟨s, e, t⟩ := hd
    have hse : s ≤ e := hb (s, e, t) (List.mem_cons_self _ _)
    have hbrest : ∀ p ∈ rest, p.1 ≤ p.2.1 :=
      fun p hp => hb p (List.mem_cons_of_mem _ hp)
    obtain ⟨hrel, hpwrest⟩ := List.pairwise_cons.mp hpw
    have hdisjrest : ∀ p ∈ rest, p.2.1 < a ∨ b < p.1 :=
      fun p hp => hdisj p (List.mem_cons_of_mem _ hp)
    intro q hq x hqx
    rw [insertMergeTIVE]
    by_cases hc1 : e + 1 < a
    · rw [if_pos hc1]
      rcases List.mem_cons.mp hq with rfl | hq'
      · exact ⟨(s, e, t), List.mem_cons_self _ _, hqx, rfl⟩
      · obtain ⟨p, hpm, hpc⟩ := ih hbrest hpwrest hdisjrest hab q hq' x hqx
        exact ⟨p, List.mem_cons_of_mem _ hpm, hpc⟩
    · rw [if_neg hc1]
      by_cases hc2 : e + 1 = a ∧ t = v
      · rw [if_pos hc2]
        have hdisj2 : ∀ p ∈ rest, p.2.1 < s ∨ b < p.1 := by
          intro p hpr
          have h1 : e < p.1 := hrel p hpr
          rcases hdisjrest p hpr with h | h
          · exfalso
            have := hbrest p hpr
            omega
          · exact Or.inr h
        rcases List.mem_cons.mp hq with rfl | hq'
        · -- the head is absorbed into the inserted range, with equal value
          obtain ⟨p, hpm, hpc, hpv⟩ := insert_covers_new hbrest hpwrest hdisj2
            (by omega) x hqx.1 (by have h2 : x ≤ e := hqx.2; omega)
          exact ⟨p, hpm, hpc, by rw [hpv, hc2.2]⟩
        · obtain ⟨p, hpm, hpc⟩ := ih hbrest hpwrest hdisj2 (by omega) q hq' x hqx
          exact ⟨p, hpm, hpc⟩
      · rw [if_neg hc2]
        by_cases hc3 : e + 1 = a
        · rw [if_pos hc3]
          rcases List.mem_cons.mp hq with rfl | hq'
          · exact ⟨(s, e, t), List.mem_cons_self _ _, hqx, rfl⟩
          · obtain ⟨p, hpm, hpc⟩ := ih hbrest hpwrest hdisjrest hab q hq' x hqx
            exact ⟨p, List.mem_cons_of_mem _ hpm, hpc⟩
        · rw [if_neg hc3]
          by_cases hc4 : b + 1 = s ∧ t = v
          · rw [if_pos hc4]
            rcases List.mem_cons.mp hq with rfl | hq'
            · refine ⟨(a, e, v), List.mem_cons_self _ _,
                ⟨?_, hqx.2⟩, by rw [hc4.2]⟩
              show a ≤ x
              have h1 : s ≤ x := hqx.1
              omega
            · exact ⟨q, List.mem_cons_of_mem _ hq', hqx, rfl⟩
          · rw [if_neg hc4]
            rcases List.mem_cons.mp hq with rfl | hq'
            · exact ⟨(s, e, t), List.mem_cons_of_mem _ (List.mem_cons_self _ _), hqx, rfl⟩
            · exact ⟨q, List.mem_cons_of_mem _ (List.mem_cons_of_mem _ hq'), hqx, rfl⟩

/-- Conversely, every covered point of the new map is either in `[a, b]`
with value `v` or was covered with the same value before. -/
theorem insert_sound {a b : Nat} {v : MemoryType} {m : PhysMap}
    (hb : ∀ p ∈ m, p.1 ≤ p.2.1)
    (hpw : m.Pairwise fun p q => p.2.1 < q.1)
    (hdisj : ∀ p ∈ m, p.2.1 < a ∨ b < p.1) :
    ∀ p ∈ insertMergeTIVE a b v m, ∀ x, covers p x →
      (a ≤ x ∧ x ≤ b ∧ p.2.2 = v) ∨ ∃ q ∈ m, covers q x ∧ q.2.2 = p.2.2 := by
  induction m generalizing a with
  | nil =>
    intro p hp x hx
    rcases List.mem_singleton.mp hp with rfl
    exact Or.inl ⟨hx.1, hx.2, rfl⟩
  | cons hd rest ih =>
    obtain ⟨s, e, t⟩ := hd
    have hse : s ≤ e := hb (s, e, t) (List.mem_cons_self _ _)
    have hbrest : ∀ p ∈ rest, p.1 ≤ p.2.1 :=
      fun p hp => hb p (List.mem_cons_of_mem _ hp)
    obtain ⟨hrel, hpwrest⟩ := List.pairwise_cons.mp hpw
    have hdisjrest : ∀ p ∈ rest, p.2.1 < a ∨ b < p.1 :=
      fun p hp => hdisj p (List.mem_cons_of_mem _ hp)
    intro p hp x hx
    rw [insertMergeTIVE] at hp
    by_cases hc1 : e + 1 < a
    · rw [if_pos hc1] at hp
      rcases List.mem_cons.mp hp with rfl | hp'
      · exact Or.inr ⟨(s, e, t), List.mem_cons_self _ _, hx, rfl⟩
      · rcases ih hbrest hpwrest hdisjrest p hp' x hx with h | ⟨q, hqm, hqc⟩
        · exact Or.inl h
        · exact Or.inr ⟨q, List.mem_cons_of_mem _ hqm, hqc⟩
    · rw [if_neg hc1] at hp
      by_cases hc2 : e + 1 = a ∧ t = v
      · rw [if_pos hc2] at hp
        have hdisj2 : ∀ p ∈ rest, p.2.1 < s ∨ b < p.1 := by
          intro p hpr
          have h1 : e < p.1 := hrel p hpr
          rcases hdisjrest p hpr with h | h
          · exfalso
            have := hbrest p hpr
            omega
          · exact Or.inr h
        rcases ih hbrest hpwrest hdisj2 p hp x hx with ⟨h1, h2, h3⟩ | ⟨q, hqm, hqc⟩
        · by_cases hxe : x ≤ e
          · exact Or.inr ⟨(s, e, t), List.mem_cons_self _ _, ⟨h1, hxe⟩,
              by rw [hc2.2, h3]⟩
          · exact Or.inl ⟨by omega, h2, h3⟩
        · exact Or.inr ⟨q, List.mem_cons_of_mem _ hqm, hqc⟩
      · rw [if_neg hc2] at hp
        by_cases hc3 : e + 1 = a
        · rw [if_pos hc3] at hp
          rcases List.mem_cons.mp hp with rfl | hp'
          · exact Or.inr ⟨(s, e, t), List.mem_cons_self _ _, hx, rfl⟩
          · rcases ih hbrest hpwrest hdisjrest p hp' x hx with h | ⟨q, hqm, hqc⟩
            · exact Or.inl h
            · exact Or.inr ⟨q, List.mem_cons_of_mem _ hqm, hqc⟩
        · rw [if_neg hc3] at hp
          by_cases hc4 : b + 1 = s ∧ t = v
          · rw [if_pos hc4] at hp
            rcases List.mem_cons.mp hp with rfl | hp'
            · -- the merged interval (a, e, v)
              by_cases hxb : x ≤ b
              · exact Or.inl ⟨hx.1, hxb, rfl⟩
              · refine Or.inr ⟨(s, e, t), List.mem_cons_self _ _,
                  ⟨?_, hx.2⟩, hc4.2⟩
                show s ≤ x
                omega
            · exact Or.inr ⟨p, List.mem_cons_of_mem _ hp', hx, rfl⟩
          · rw [if_neg hc4] at hp
            rcases List.mem_cons.mp hp with rfl | hp'
            · exact Or.inl ⟨hx.1, hx.2, rfl⟩
            · exact Or.inr ⟨p, hp', hx, rfl⟩

/-- Insertion of a disjoint range preserves well-formedness. -/
theorem insert_wf {a b : Nat} {v : MemoryType} {m : PhysMap}
    (hb : ∀ p ∈ m, p.1 ≤ p.2.1)
    (hpw : m.Pairwise fun p q => p.2.1 < q.1)
    (hdisj : ∀ p ∈ m, p.2.1 < a ∨ b < p.1) (hab : a ≤ b) :
    (∀ p ∈ insertMergeTIVE a b v m, p.1 ≤ p.2.1) ∧
      (insertMergeTIVE a b v m).Pairwise fun p q => p.2.1 < q.1 := by
  induction m generalizing a with
  | nil =>
    constructor
    · intro p hp
      rcases List.mem_singleton.mp hp with rfl
      exact hab
    · exact List.pairwise_singleton _ _
  | cons hd rest ih =>
    obtain ⟨s, e, t⟩ := hd
    have hse : s ≤ e := hb (s, e, t) (List.mem_cons_self _ _)
    have hbrest : ∀ p ∈ rest, p.1 ≤ p.2.1 :=
      fun p hp => hb p (List.mem_cons_of_mem _ hp)
    obtain ⟨hrel, hpwrest⟩ := List.pairwise_cons.mp hpw
    have hdisjrest : ∀ p ∈ rest, p.2.1 < a ∨ b < p.1 :=
      fun p hp => hdisj p (List.mem_cons_of_mem _ hp)
    have hheaddisj : e < a ∨ b < s := hdisj (s, e, t) (List.mem_cons_self _ _)
    rw [insertMergeTIVE]
    by_cases hc1 : e + 1 < a
    · rw [if_pos hc1]
      obtain ⟨ihb, ihpw⟩ := ih hbrest hpwrest hdisjrest hab
      have hlb : ∀ p ∈ insertMergeTIVE a b v rest, e < p.1 :=
        insert_start_lb hrel (by omega)
      constructor
      · intro p hp
        rcases List.mem_cons.mp hp with rfl | hp'
        · exact hse
        · exact ihb p hp'
      · exact List.pairwise_cons.mpr ⟨hlb, ihpw⟩
    · rw [if_neg hc1]
      by_cases hc2 : e + 1 = a ∧ t = v
      · rw [if_pos hc2]
        have hdisj2 : ∀ p ∈ rest, p.2.1 < s ∨ b < p.1 := by
          intro p hpr
          have h1 : e < p.1 := hrel p hpr
          rcases hdisjrest p hpr with h | h
          · exfalso
            have := hbrest p hpr
            omega
          · exact Or.inr h
        exact ih hbrest hpwrest hdisj2 (by omega)
      · rw [if_neg hc2]
        by_cases hc3 : e + 1 = a
        · rw [if_pos hc3]
          obtain ⟨ihb, ihpw⟩ := ih hbrest hpwrest hdisjrest hab
          have hlb : ∀ p ∈ insertMergeTIVE a b v rest, e < p.1 :=
            insert_start_lb hrel (by omega)
          constructor
          · intro p hp
            rcases List.mem_cons.mp hp with rfl | hp'
            · exact hse
            · exact ihb p hp'
          · exact List.pairwise_cons.mpr ⟨hlb, ihpw⟩
        · rw [if_neg hc3]
          by_cases hc4 : b + 1 = s ∧ t = v
          · rw [if_pos hc4]
            constructor
            · intro p hp
              rcases List.mem_cons.mp hp with rfl | hp'
              · show a ≤ e; omega
              · exact hbrest p hp'
            · refine List.pairwise_cons.mpr ⟨?_, hpwrest⟩
              intro q hq
              have h9 : e < q.1 := hrel q hq
              show e < q.1
              omega
          · rw [if_neg hc4]
            have hsb : b < s := by
              rcases hheaddisj with h | h
              · omega
              · exact h
            constructor
            · intro p hp
              rcases List.mem_cons.mp hp with rfl | hp'
              · exact hab
              · rcases List.mem_cons.mp hp' with rfl | hp2
                · exact hse
                · exact hbrest p hp2
            · refine List.pairwise_cons.mpr ⟨?_, hpw⟩
              intro q hq
              rcases List.mem_cons.mp hq with rfl | hq'
              · show b < s
                exact hsb
              · have h9 : e < q.1 := hrel q hq'
                show b < q.1
                omega

/-! ### The combined effect of `cut` then insert, and the allocator scan -/

/-- Cutting `[a, b]` and re-inserting it with value `v` yields a well-formed
map whose points in `[a, b]` have type `v` and whose other points are
unchanged. -/
theorem update_typeAt {a b : Nat} {v : MemoryType} {m : PhysMap}
    (hwf : PhysMapWF m) (hab : a ≤ b) :
    PhysMapWF (insertMergeTIVE a b v (cut a b m)) ∧
    ∀ x, typeAt (insertMergeTIVE a b v (cut a b m)) x =
      if a ≤ x ∧ x ≤ b then some v else typeAt m x := by
  obtain ⟨hb, hpw⟩ := hwf
  have hcb : ∀ p ∈ cut a b m, p.1 ≤ p.2.1 :=
    fun p hp => (cut_pieces hb p hp).2.1
  have hcpw := cut_pairwise hab hb hpw
  have hcdisj : ∀ p ∈ cut a b m, p.2.1 < a ∨ b < p.1 :=
    fun p hp => (cut_pieces hb p hp).1
  obtain ⟨hib, hipw⟩ := insert_wf hcb hcpw hcdisj hab
  refine ⟨⟨hib, hipw⟩, ?_⟩
  intro x
  by_cases hx : a ≤ x ∧ x ≤ b
  · rw [if_pos hx]
    obtain ⟨p, hpm, hpc, hpv⟩ := insert_covers_new hcb hcpw hcdisj hab x hx.1 hx.2
    rw [typeAt_eq_of_mem ⟨hib, hipw⟩ hpm hpc, hpv]
  · rw [if_neg hx]
    cases hty : typeAt m x with
    | some t =>
      obtain ⟨q, hqm, hqc, hqv⟩ := exists_mem_of_typeAt_eq_some hty
      obtain ⟨p, hpm, hpc, hpv⟩ := cut_covers hx hqm hqc
      obtain ⟨p2, hp2m, hp2c, hp2v⟩ :=
        insert_covers_old hcb hcpw hcdisj hab p hpm x hpc
      rw [typeAt_eq_of_mem ⟨hib, hipw⟩ hp2m hp2c, hp2v, hpv, hqv]
    | none =>
      rw [typeAt_eq_none_iff]
      intro p hpm hpc
      rcases insert_sound hcb hcpw hcdisj p hpm x hpc with ⟨h1, h2, -⟩ | ⟨q, hqm, hqc, -⟩
      · exact hx ⟨h1, h2⟩
      · obtain ⟨-, -, q0, hq0m, hq01, hq02, -⟩ := cut_pieces hb q hqm
        exact typeAt_eq_none_iff.mp hty q0 hq0m
          ⟨le_trans hq01 hqc.1, le_trans hqc.2 hq02⟩

/-- If the scan returns an address, it is the aligned start of a fitting
Usable interval of the map. -/
theorem findUsableStart_some {size : Nat} {m : PhysMap} {a : Nat}
    (h : findUsableStart size m = some a) :
    ∃ s e, (s, e, MemoryType.usable) ∈ m ∧ a = nextMultipleOf s size ∧
      a + (size - 1) ≤ e := by
  induction m with
  | nil => cases h
  | cons hd rest ih =>
    obtain ⟨s, e, t⟩ := hd
    rw [findUsableStart] at h
    by_cases hg : t = MemoryType.usable ∧ nextMultipleOf s size + (size - 1) ≤ e
    · rw [if_pos hg] at h
      obtain rfl := Option.some.inj h
      exact ⟨s, e, by rw [hg.1] at *; exact List.mem_cons_self _ _, rfl, hg.2⟩
    · rw [if_neg hg] at h
      obtain ⟨s2, e2, hm, h1, h2⟩ := ih h
      exact ⟨s2, e2, List.mem_cons_of_mem _ hm, h1, h2⟩

/-- First-fit minimality: the scan result is the least aligned address at
which a frame fits entirely inside a Usable interval. -/
theorem findUsableStart_min {size : Nat} (hsize : 0 < size) {m : PhysMap}
    (hb : ∀ p ∈ m, p.1 ≤ p.2.1)
    (hpw : m.Pairwise fun p q => p.2.1 < q.1)
    {a : Nat} (h : findUsableStart size m = some a) :
    ∀ c, c % size = 0 → FitsUsable m size c → a ≤ c := by
  induction m with
  | nil => cases h
  | cons hd rest ih =>
    obtain ⟨s, e, t⟩ := hd
    have hbrest : ∀ p ∈ rest, p.1 ≤ p.2.1 :=
      fun p hp => hb p (List.mem_cons_of_mem _ hp)
    obtain ⟨hrel, hpwrest⟩ := List.pairwise_cons.mp hpw
    rw [findUsableStart] at h
    intro c hca ⟨q, hq, hqt, hq1, hq2⟩
    by_cases hg : t = MemoryType.usable ∧ nextMultipleOf s size + (size - 1) ≤ e
    · rw [if_pos hg] at h
      obtain rfl := Option.some.inj h
      rcases List.mem_cons.mp hq with rfl | hq'
      · exact nextMultipleOf_le hsize hca hq1
      · have h1 : e < q.1 := hrel q hq'
        have h2 : nextMultipleOf s size + (size - 1) ≤ e := hg.2
        omega
    · rw [if_neg hg] at h
      rcases List.mem_cons.mp hq with rfl | hq'
      · exfalso
        have ht : t = MemoryType.usable := hqt
        have hs1 : s ≤ c := hq1
        have hs2 : c + (size - 1) ≤ e := hq2
        have := nextMultipleOf_le hsize hca hs1
        exact hg ⟨ht, by omega⟩
      · exact ih hbrest hpwrest h c hca ⟨q, hq', hqt, hq1, hq2⟩

/-- If the scan returns nothing, no aligned frame fits in any Usable
interval. -/
theorem findUsableStart_none {size : Nat} (hsize : 0 < size) {m : PhysMap}
    (h : findUsableStart size m = none) :
    ∀ c, c % size = 0 → ¬ FitsUsable m size c := by
  induction m with
  | nil =>
    intro c hca ⟨q, hq, h3⟩
    cases hq
  | cons hd rest ih =>
    obtain ⟨s, e, t⟩ := hd
    rw [findUsableStart] at h
    by_cases hg : t = MemoryType.usable ∧ nextMultipleOf s size + (size - 1) ≤ e
    · rw [if_pos hg] at h; cases h
    · rw [if_neg hg] at h
      intro c hca ⟨q, hq, hqt, hq1, hq2⟩
      rcases List.mem_cons.mp hq with rfl | hq'
      · have ht : t = MemoryType.usable := hqt
        have hs1 : s ≤ c := hq1
        have hs2 : c + (size - 1) ≤ e := hq2
        have := nextMultipleOf_le hsize hca hs1
        exact hg ⟨ht, by omega⟩
      · exact ih h c hca ⟨q, hq', hqt, hq1, hq2⟩

/-- Full specification of a successful `allocate_frame_with_type` call. -/
theorem allocate_some_spec {size : Nat} (hsize : 0 < size)
    {tag : MemoryType} {m : PhysMap} (hwf : PhysMapWF m) {a : Nat}
    {m2 : PhysMap} (h : allocate_frame_with_type size tag m = some (a, m2)) :
    PhysMapWF m2 ∧ a % size = 0 ∧ FitsUsable m size a ∧
    (∀ x, a ≤ x → x ≤ a + (size - 1) → typeAt m x = some MemoryType.usable) ∧
    (∀ x, typeAt m2 x =
      if a ≤ x ∧ x ≤ a + (size - 1) then some tag else typeAt m x) ∧
    (∀ c, c % size = 0 → FitsUsable m size c → a ≤ c) := by
  unfold allocate_frame_with_type at h
  cases hfind : findUsableStart size m with
  | none => rw [hfind] at h; cases h
  | some a0 =>
    rw [hfind, Option.map_some'] at h
    obtain ⟨rfl, rfl⟩ := Prod.mk.injEq _ _ _ _ ▸ Option.some.inj h
    obtain ⟨s, e, hmem, haeq, hfit⟩ := findUsableStart_some hfind
    have hsa : s ≤ a0 := haeq ▸ nextMultipleOf_ge s hsize
    have husable : ∀ x, a0 ≤ x → x ≤ a0 + (size - 1) →
        typeAt m x = some MemoryType.usable := by
      intro x hx1 hx2
      exact typeAt_eq_of_mem hwf hmem ⟨show s ≤ x by omega, show x ≤ e by omega⟩
    obtain ⟨hwf2, hupd⟩ := update_typeAt hwf (by omega : a0 ≤ a0 + (size - 1))
    exact ⟨hwf2, haeq ▸ nextMultipleOf_mod s size,
      ⟨(s, e, MemoryType.usable), hmem, rfl, hsa, hfit⟩,
      husable, hupd, findUsableStart_min hsize hwf.1 hwf.2 hfind⟩

/-- An unsuccessful call leaves no doubt: no aligned frame fits. -/
theorem allocate_none_spec {size : Nat} (hsize : 0 < size)
    {tag : MemoryType} {m : PhysMap}
    (h : allocate_frame_with_type size tag m = none) :
    ∀ c, c % size = 0 → ¬ FitsUsable m size c := by
  unfold allocate_frame_with_type at h
  cases hfind : findUsableStart size m with
  | none => exact findUsableStart_none hsize hfind
  | some a0 => rw [hfind] at h; cases h

/-! ### `remove_user_mode_memory` -/

/-- Effect of the reclamation loop: it reclassifies exactly the points of
the collected intervals to Usable, preserving well-formedness. -/
theorem removeFold_spec (L : List (Nat × Nat)) (hL : ∀ q ∈ L, q.1 ≤ q.2) :
    ∀ acc, PhysMapWF acc →
      PhysMapWF (L.foldl
        (fun acc q => insertMergeTIVE q.1 q.2 MemoryType.usable
          (cut q.1 q.2 acc)) acc) ∧
      ∀ x,
        ((∃ q ∈ L, q.1 ≤ x ∧ x ≤ q.2) →
          typeAt (L.foldl (fun acc q => insertMergeTIVE q.1 q.2
            MemoryType.usable (cut q.1 q.2 acc)) acc) x =
            some MemoryType.usable) ∧
        ((∀ q ∈ L, ¬(q.1 ≤ x ∧ x ≤ q.2)) →
          typeAt (L.foldl (fun acc q => insertMergeTIVE q.1 q.2
            MemoryType.usable (cut q.1 q.2 acc)) acc) x = typeAt acc x) := by
  induction L with
  | nil =>
    refine fun acc hwf => ⟨hwf, fun x => ⟨fun h => ?_, fun _ => rfl⟩⟩
    simp at h
  | cons q L ih =>
    intro acc hwf
    have hq12 : q.1 ≤ q.2 := hL q (List.mem_cons_self _ _)
    have hLrest : ∀ p ∈ L, p.1 ≤ p.2 :=
      fun p hp => hL p (List.mem_cons_of_mem _ hp)
    obtain ⟨hwf1, hupd⟩ := update_typeAt hwf hq12
    obtain ⟨hwfF, hF⟩ := ih hLrest _ hwf1
    rw [List.foldl_cons]
    refine ⟨hwfF, fun x => ⟨?_, ?_⟩⟩
    · rintro ⟨q0, hq0, hx⟩
      rcases List.mem_cons.mp hq0 with rfl | hq0'
      · by_cases hrest : ∃ q2 ∈ L, q2.1 ≤ x ∧ x ≤ q2.2
        · exact (hF x).1 hrest
        · push_neg at hrest
          have hnone2 : ∀ q2 ∈ L, ¬(q2.1 ≤ x ∧ x ≤ q2.2) := by
            intro q2 h2 hc
            have := hrest q2 h2
            omega
          rw [(hF x).2 hnone2, hupd x, if_pos hx]
      · exact (hF x).1 ⟨q0, hq0', hx⟩
    · intro hnone
      have hq0 := hnone q (List.mem_cons_self _ _)
      rw [(hF x).2 (fun q2 h2 => hnone q2 (List.mem_cons_of_mem _ h2)),
        hupd x, if_neg hq0]

/-- `remove_user_mode_memory` turns exactly the `UsedByUserMode` points into
Usable ones, leaving every other point unchanged. -/
theorem remove_user_mode_memory_spec {m : PhysMap} (hwf : PhysMapWF m) :
    PhysMapWF (remove_user_mode_memory m) ∧
    (∀ x u, typeAt m x = some (MemoryType.usedByUserMode u) →
      typeAt (remove_user_mode_memory m) x = some MemoryType.usable) ∧
    (∀ x, (∀ u, typeAt m x ≠ some (MemoryType.usedByUserMode u)) →
      typeAt (remove_user_mode_memory m) x = typeAt m x) := by
  unfold remove_user_mode_memory
  have hmemL : ∀ q ∈ m.filterMap fun p =>
      match p.2.2 with
      | MemoryType.usedByUserMode _ => some (p.1, p.2.1)
      | _ => none,
      ∃ p ∈ m, (∃ u, p.2.2 = MemoryType.usedByUserMode u) ∧
        q = (p.1, p.2.1) := by
    intro q hq
    obtain ⟨p, hp, hpq⟩ := List.mem_filterMap.mp hq
    refine ⟨p, hp, ?_, ?_⟩
    · cases hv : p.2.2 <;> rw [hv] at hpq
      · cases hpq
      · cases hpq
      · cases hpq
      · exact ⟨_, rfl⟩
    · cases hv : p.2.2 <;> rw [hv] at hpq
      · cases hpq
      · cases hpq
      · cases hpq
      · exact (Option.some.inj hpq).symm
  have hL : ∀ q ∈ m.filterMap fun p =>
      match p.2.2 with
      | MemoryType.usedByUserMode _ => some (p.1, p.2.1)
      | _ => none, q.1 ≤ q.2 := by
    intro q hq
    obtain ⟨p, hp, -, rfl⟩ := hmemL q hq
    exact hwf.1 p hp
  obtain ⟨hwfF, hF⟩ := removeFold_spec _ hL m hwf
  refine ⟨hwfF, ?_, ?_⟩
  · intro x u hx
    obtain ⟨p, hp, hpc, hpv⟩ := exists_mem_of_typeAt_eq_some hx
    refine (hF x).1 ⟨(p.1, p.2.1), ?_, hpc.1, hpc.2⟩
    exact List.mem_filterMap.mpr ⟨p, hp, by rw [hpv]⟩
  · intro x hx
    refine (hF x).2 ?_
    intro q hq ⟨h1, h2⟩
    obtain ⟨p, hp, ⟨u, hu⟩, rfl⟩ := hmemL q hq
    exact hx u (by rw [← hu]; exact typeAt_eq_of_mem hwf hp ⟨h1, h2⟩)

/-! ### Sequences of allocator operations (claim C1) -/

/-- An operation on `PhysicalMemory` relevant to claim C1. -/
inductive MemOp where
  | alloc (size : Nat) (tag : MemoryType)
  | removeUserModeMemory
  deriving DecidableEq, Repr

def stepMem (m : PhysMap) : MemOp → PhysMap
  | .alloc size tag =>
    match allocate_frame_with_type size tag m with
    | some r => r.2
    | none => m
  | .removeUserModeMemory => remove_user_mode_memory m

def runMem (m : PhysMap) (ops : List MemOp) : PhysMap := ops.foldl stepMem m

/-- Invariant propagation: a frame tagged with a non-Usable type survives a
run of positive-size allocations untouched, and also survives
`remove_user_mode_memory` when its tag is not a user-mode tag. -/
theorem runMem_preserves {a1 s1 : Nat} {t1 : MemoryType}
    (ht1 : t1 ≠ MemoryType.usable) (ops : List MemOp)
    (hops : ∀ op ∈ ops, (∃ sz tg, op = MemOp.alloc sz tg ∧ 0 < sz) ∨
      (op = MemOp.removeUserModeMemory ∧
        ∀ u, t1 ≠ MemoryType.usedByUserMode u)) :
    ∀ m, PhysMapWF m →
      (∀ x, a1 ≤ x → x ≤ a1 + (s1 - 1) → typeAt m x = some t1) →
      PhysMapWF (runMem m ops) ∧
      (∀ x, a1 ≤ x → x ≤ a1 + (s1 - 1) →
        typeAt (runMem m ops) x = some t1) := by
  induction ops with
  | nil => exact fun m hwf hpts => ⟨hwf, hpts⟩
  | cons op ops ih =>
    intro m hwf hpts
    have hopsrest : ∀ op ∈ ops, (∃ sz tg, op = MemOp.alloc sz tg ∧ 0 < sz) ∨
        (op = MemOp.removeUserModeMemory ∧
          ∀ u, t1 ≠ MemoryType.usedByUserMode u) :=
      fun op hop => hops op (List.mem_cons_of_mem _ hop)
    rw [runMem, List.foldl_cons]
    rcases hops op (List.mem_cons_self _ _) with ⟨sz, tg, rfl, hsz⟩ | ⟨rfl, huser⟩
    · cases halloc : allocate_frame_with_type sz tg m with
      | none =>
        have hstep : stepMem m (MemOp.alloc sz tg) = m := by
          rw [stepMem, halloc]
        rw [hstep]
        exact ih hopsrest m hwf hpts
      | some r =>
        obtain ⟨a, m2⟩ := r
        have hstep : stepMem m (MemOp.alloc sz tg) = m2 := by
          rw [stepMem, halloc]
        rw [hstep]
        obtain ⟨hwf2, -, -, husable, hupd, -⟩ := allocate_some_spec hsz hwf halloc
        refine ih hopsrest m2 hwf2 ?_
        intro x hx1 hx2
        rw [hupd x]
        by_cases hxin : a ≤ x ∧ x ≤ a + (sz - 1)
        · exfalso
          have h1 := husable x hxin.1 hxin.2
          have h2 := hpts x hx1 hx2
          rw [h1] at h2
          exact ht1 (Option.some.inj h2).symm
        · rw [if_neg hxin]
          exact hpts x hx1 hx2
    · have hstep : stepMem m MemOp.removeUserModeMemory =
          remove_user_mode_memory m := rfl
      rw [hstep]
      obtain ⟨hwf2, -, hkeep⟩ := remove_user_mode_memory_spec hwf
      refine ih hopsrest _ hwf2 ?_
      intro x hx1 hx2
      rw [hkeep x ?_, hpts x hx1 hx2]
      intro u hu
      rw [hpts x hx1 hx2] at hu
      exact huser u (Option.some.inj hu)

/-- C1: two successful `allocate_frame_with_type` calls return disjoint
physical ranges as long as no reclassification of the first frame's range
back to Usable happened between them: every intervening operation is either
a (positive-size) allocation, or a `remove_user_mode_memory` while the
first frame's tag is not a user-mode tag (so the relevant range is not
reclassified).  And if the first frame was tagged `UsedByUserMode`, running
`remove_user_mode_memory` reclassifies its whole range back to Usable, so
it can be handed out again. -/
theorem c1_allocate_frames_disjoint_unless_reclaimed
    (m1 : PhysMap) (hwf : PhysMapWF m1)
    (s1 : Nat) (t1 : MemoryType) (hs1 : 0 < s1)
    (ht1 : t1 ≠ MemoryType.usable)
    (a1 : Nat) (m1b : PhysMap)
    (h1 : allocate_frame_with_type s1 t1 m1 = some (a1, m1b))
    (mid : List MemOp)
    (hmid : ∀ op ∈ mid, (∃ sz tg, op = MemOp.alloc sz tg ∧ 0 < sz) ∨
      (op = MemOp.removeUserModeMemory ∧
        ∀ u, t1 ≠ MemoryType.usedByUserMode u))
    (s2 : Nat) (t2 : MemoryType) (hs2 : 0 < s2)
    (a2 : Nat) (m2b : PhysMap)
    (h2 : allocate_frame_with_type s2 t2 (runMem m1b mid) = some (a2, m2b)) :
    (a1 + (s1 - 1) < a2 ∨ a2 + (s2 - 1) < a1) ∧
    (∀ u, t1 = MemoryType.usedByUserMode u →
      ∀ x, a1 ≤ x → x ≤ a1 + (s1 - 1) →
        typeAt (remove_user_mode_memory m1b) x = some MemoryType.usable) := by
  obtain ⟨hwf1, -, -, -, hupd1, -⟩ := allocate_some_spec hs1 hwf h1
  have hpts1 : ∀ x, a1 ≤ x → x ≤ a1 + (s1 - 1) → typeAt m1b x = some t1 := by
    intro x hx1 hx2
    rw [hupd1 x, if_pos ⟨hx1, hx2⟩]
  obtain ⟨hwfr, hptsr⟩ := runMem_preserves ht1 mid hmid m1b hwf1 hpts1
  obtain ⟨-, -, -, husable2, -, -⟩ := allocate_some_spec hs2 hwfr h2
  constructor
  · by_contra hno
    push_neg at hno
    obtain ⟨hd1, hd2⟩ := hno
    have hy1 : a1 ≤ max a1 a2 := le_max_left _ _
    have hy2 : a2 ≤ max a1 a2 := le_max_right _ _
    have hy3 : max a1 a2 ≤ a1 + (s1 - 1) := by omega
    have hy4 : max a1 a2 ≤ a2 + (s2 - 1) := by omega
    have hu := husable2 (max a1 a2) hy2 hy4
    have ht := hptsr (max a1 a2) hy1 hy3
    rw [hu] at ht
    exact ht1 (Option.some.inj ht).symm
  · intro u hu x hx1 hx2
    exact (remove_user_mode_memory_spec hwf1).2.1 x u
      (by rw [hpts1 x hx1 hx2, hu])

/-- Closed instance of `c1_allocate_frames_disjoint_unless_reclaimed`: two
4 KiB allocations from a fresh 8 KiB Usable map give frames 0x0000 and
0x1000. -/
theorem c1_allocate_frames_disjoint_witness :
    (0 : Nat) + (0x1000 - 1) < 0x1000 ∨ (0x1000 : Nat) + (0x1000 - 1) < 0 := by
  have h := c1_allocate_frames_disjoint_unless_reclaimed
    [(0, 0x1FFF, MemoryType.usable)]
    ⟨by decide, by decide⟩ 0x1000 (MemoryType.usedByKernel .pageTables)
    (by norm_num) (by decide) 0
    [(0, 0xFFF, MemoryType.usedByKernel .pageTables),
     (0x1000, 0x1FFF, MemoryType.usable)]
    (by decide) [] (fun op hop => absurd hop (List.not_mem_nil _))
    0x1000 (MemoryType.usedByKernel .pageTables) (by norm_num)
    0x1000 [(0, 0x1FFF, MemoryType.usedByKernel .pageTables)]
    (by decide)
  exact h.1

/-- C7: `allocate_frame_with_type<Size>(tag)` scans the map in ascending
address order; a successful call returns the aligned start of the first
(lowest-address, hence deterministic) Usable interval that fits an aligned
frame, reclassifies exactly that range to `tag` and changes nothing else; a
call returns `None` exactly when no Usable interval fits an aligned
frame. -/
theorem c7_allocate_first_fit (m : PhysMap) (hwf : PhysMapWF m)
    (size : Nat) (hsize : 0 < size) (tag : MemoryType) :
    (∀ a m2, allocate_frame_with_type size tag m = some (a, m2) →
      a % size = 0 ∧ FitsUsable m size a ∧
      (∀ c, c % size = 0 → FitsUsable m size c → a ≤ c) ∧
      (∀ x, a ≤ x → x ≤ a + (size - 1) →
        typeAt m x = some MemoryType.usable) ∧
      (∀ x, typeAt m2 x =
        if a ≤ x ∧ x ≤ a + (size - 1) then some tag else typeAt m x)) ∧
    (allocate_frame_with_type size tag m = none →
      ∀ c, c % size = 0 → ¬ FitsUsable m size c) := by
  constructor
  · intro a m2 h
    obtain ⟨-, hal, hfits, husable, hupd, hmin⟩ := allocate_some_spec hsize hwf h
    exact ⟨hal, hfits, hmin, husable, hupd⟩
  · exact allocate_none_spec hsize

/-- Closed instance of `c7_allocate_first_fit`: on the map
{[0,0xFFF] ↦ UsedByLimine, [0x1000,0x3FFF] ↦ Usable} a 4 KiB allocation
returns 0x1000, the lowest aligned fitting address. -/
theorem c7_allocate_first_fit_witness :
    (0x1000 : Nat) % 0x1000 = 0 ∧
    FitsUsable [(0, 0xFFF, MemoryType.usedByLimine),
      (0x1000, 0x3FFF, MemoryType.usable)] 0x1000 0x1000 ∧
    typeAt [(0, 0xFFF, MemoryType.usedByLimine),
      (0x1000, 0x3FFF, MemoryType.usable)] 0x1000 =
      some MemoryType.usable := by
  have h := (c7_allocate_first_fit
    [(0, 0xFFF, MemoryType.usedByLimine), (0x1000, 0x3FFF, MemoryType.usable)]
    ⟨by decide, by decide⟩ 0x1000 (by norm_num)
    (MemoryType.usedByUserMode .elf)).1 0x1000
    [(0, 0xFFF, MemoryType.usedByLimine),
     (0x1000, 0x1FFF, MemoryType.usedByUserMode .elf),
     (0x2000, 0x3FFF, MemoryType.usable)] (by decide)
  exact ⟨h.1, h.2.1, h.2.2.2.1 0x1000 (le_refl _) (by norm_num)⟩

/-! ## Page-fault handler (src/kernel/src/idt/page_fault_handler.rs)

`type ExtendBy = Size2MiB`: the guard page is the 2 MiB page containing
`INITIAL_RSP - task.stack_size - 1` (computed with `checked_sub`), and a
CPL=3 fault grows the stack only when the page containing the CR2 address
equals it.  Pages are compared by start address, i.e. by `addr / 2 MiB`.
`map_to` is the x86_64 mapper: it errors if the page is already mapped
(the handler unwraps that, panicking the kernel); the intermediate
page-table frames it may allocate (and its `FrameAllocationFailed` error
arm) are outside this model, which tracks the 2 MiB leaf mappings. -/

def INITIAL_RSP : Nat := 0x800000000000

def SIZE2M : Nat := 0x200000

/-- `u64` wrapping subtraction. -/
def wsub64 (a b : Nat) : Nat := (2 ^ 64 + a - b) % 2 ^ 64

structure PageTableFlagsModel where
  present : Bool
  user_accessible : Bool
  writable : Bool
  no_execute : Bool
  deriving DecidableEq, Repr

/-- The 2 MiB user mappings: (page index, frame start address, flags). -/
abbrev UserPageMap := List (Nat × Nat × PageTableFlagsModel)

def map_to (pm : UserPageMap) (page frame : Nat)
    (flags : PageTableFlagsModel) : Option UserPageMap :=
  if pm.any fun p => decide (p.1 = page) then none
  else some ((page, frame, flags) :: pm)

inductive PageFaultOutcome where
  | resumed
  | haltUser
  | kernelPanic
  deriving DecidableEq, Repr

structure PageFaultResult where
  outcome : PageFaultOutcome
  stackSize : Nat
  phys : PhysMap
  pageMap : UserPageMap
  deriving DecidableEq, Repr

def page_fault_handler (ring3 : Bool) (accessed stackSize : Nat)
    (phys : PhysMap) (pm : UserPageMap) : PageFaultResult :=
  if ring3 then
    let bottom := wsub64 INITIAL_RSP stackSize
    if bottom = 0 then
      -- (INITIAL_RSP - stack_size).checked_sub(1) was None: regular fault
      ⟨.haltUser, stackSize, phys, pm⟩
    else
      let guardPage := (bottom - 1) / SIZE2M
      if accessed / SIZE2M = guardPage then
        match allocate_frame_with_type SIZE2M
          (MemoryType.usedByUserMode .stack) phys with
        | none => ⟨.haltUser, stackSize, phys, pm⟩
        | some (frame, phys2) =>
          match map_to pm guardPage frame ⟨true, true, true, true⟩ with
          | none => ⟨.kernelPanic, stackSize, phys2, pm⟩
          | some pm2 => ⟨.resumed, stackSize + SIZE2M, phys2, pm2⟩
      else ⟨.haltUser, stackSize, phys, pm⟩
  else ⟨.kernelPanic, stackSize, phys, pm⟩

/-- C3: on a CPL=3 page fault with a 2 MiB-aligned stack of positive size,
the handler grows the stack exactly when the faulted address lies in the
page immediately below the stack bottom: it allocates one
`UsedByUserMode::Stack` frame (whose range was Usable and is reclassified),
maps the guard page with PRESENT|USER|WRITABLE|NO_EXECUTE, and bumps the
recorded stack size by one (2 MiB) page; allocation failure halts without
mapping, and a fault in any other page halts with nothing allocated or
mapped. -/
theorem c3_stack_growth_guard_page
    (accessed stackSize : Nat) (phys : PhysMap) (pm : UserPageMap)
    (hwf : PhysMapWF phys)
    (hmul : stackSize % SIZE2M = 0) (hpos : 0 < stackSize)
    (hlt : stackSize < INITIAL_RSP)
    (hguardfree : ∀ p ∈ pm,
      p.1 ≠ (INITIAL_RSP - stackSize) / SIZE2M - 1) :
    (accessed / SIZE2M = (INITIAL_RSP - stackSize) / SIZE2M - 1 →
      (∀ frame phys2,
        allocate_frame_with_type SIZE2M (MemoryType.usedByUserMode .stack)
          phys = some (frame, phys2) →
        page_fault_handler true accessed stackSize phys pm =
          ⟨.resumed, stackSize + SIZE2M, phys2,
            ((INITIAL_RSP - stackSize) / SIZE2M - 1, frame,
              ⟨true, true, true, true⟩) :: pm⟩ ∧
        (∀ x, frame ≤ x → x ≤ frame + (SIZE2M - 1) →
          typeAt phys x = some MemoryType.usable ∧
          typeAt phys2 x = some (MemoryType.usedByUserMode .stack))) ∧
      (allocate_frame_with_type SIZE2M (MemoryType.usedByUserMode .stack)
          phys = none →
        page_fault_handler true accessed stackSize phys pm =
          ⟨.haltUser, stackSize, phys, pm⟩)) ∧
    (accessed / SIZE2M ≠ (INITIAL_RSP - stackSize) / SIZE2M - 1 →
      page_fault_handler true accessed stackSize phys pm =
        ⟨.haltUser, stackSize, phys, pm⟩) := by
  have hb : wsub64 INITIAL_RSP stackSize = INITIAL_RSP - stackSize := by
    unfold wsub64 INITIAL_RSP
    unfold INITIAL_RSP at hlt
    omega
  have hbz : INITIAL_RSP - stackSize ≠ 0 := by omega
  have hguard : (INITIAL_RSP - stackSize - 1) / SIZE2M =
      (INITIAL_RSP - stackSize) / SIZE2M - 1 := by
    unfold INITIAL_RSP SIZE2M
    unfold SIZE2M at hmul
    unfold INITIAL_RSP at hlt
    omega
  refine ⟨fun hacc => ⟨?_, ?_⟩, fun hacc => ?_⟩
  · intro frame phys2 halloc
    have hnomap : (pm.any fun p =>
        decide (p.1 = (INITIAL_RSP - stackSize) / SIZE2M - 1)) = false := by
      rw [List.any_eq_false]
      intro p hp
      simpa using hguardfree p hp
    obtain ⟨-, -, -, husable, hupd, -⟩ :=
      allocate_some_spec (by unfold SIZE2M; norm_num) hwf halloc
    have hmapto : map_to pm ((INITIAL_RSP - stackSize) / SIZE2M - 1) frame
        ⟨true, true, true, true⟩ =
        some (((INITIAL_RSP - stackSize) / SIZE2M - 1, frame,
          ⟨true, true, true, true⟩) :: pm) := by
      simp [map_to, hnomap]
    constructor
    · unfold page_fault_handler
      rw [if_pos rfl, hb, if_neg hbz, hguard, if_pos hacc, halloc]
      dsimp only
      rw [hmapto]
    · intro x hx1 hx2
      refine ⟨husable x hx1 hx2, ?_⟩
      rw [hupd x, if_pos ⟨hx1, hx2⟩]
  · intro halloc
    unfold page_fault_handler
    rw [if_pos rfl, hb, if_neg hbz, hguard, if_pos hacc, halloc]
  · unfold page_fault_handler
    rw [if_pos rfl, hb, if_neg hbz, hguard, if_neg hacc]

/-- Closed instance of `c3_stack_growth_guard_page`: with a 2 MiB stack and
4 MiB of Usable physical memory, touching the byte just below the stack
bottom maps one new 2 MiB stack frame and grows the recorded size. -/
theorem c3_stack_growth_guard_page_witness :
    page_fault_handler true (0x800000000000 - 0x200000 - 1) 0x200000
      [(0, 0x3FFFFF, MemoryType.usable)] [] =
    ⟨.resumed, 0x400000,
      [(0, 0x1FFFFF, MemoryType.usedByUserMode .stack),
       (0x200000, 0x3FFFFF, MemoryType.usable)],
      [(0x3FFFFFE, 0, ⟨true, true, true, true⟩)]⟩ := by
  have h := (c3_stack_growth_guard_page (0x800000000000 - 0x200000 - 1)
    0x200000 [(0, 0x3FFFFF, MemoryType.usable)] []
    ⟨by decide, by decide⟩ (by decide) (by norm_num) (by decide)
    (fun p hp => absurd hp (List.not_mem_nil _))).1 (by decide)
  have h2 := (h.1 0 [(0, 0x1FFFFF, MemoryType.usedByUserMode .stack),
    (0x200000, 0x3FFFFF, MemoryType.usable)] (by decide)).1
  rw [h2]
  decide

/-! ## The kernel virtual-memory set
(src/kernel/src/memory/virtual_memory.rs)

`VirtualMemory::set` is a `NoditSet<u64, Interval<u64>>` of reserved byte
ranges.  `allocate_contiguous_pages::<S>(n_pages)` walks
`set.gaps_trimmed(iu(0xffff800000000000))` in ascending order, takes the
first gap in which `n_pages` aligned pages fit, inserts the chosen range
with `insert_merge_touching` and returns it.  Ranges are byte ranges
(inclusive); the returned page range of the Rust code is exactly the byte
range divided into pages. -/

abbrev VirtSet := List (Nat × Nat)

def HIGHER_HALF : Nat := 0xffff800000000000

def VirtSetWF (vs : VirtSet) : Prop :=
  (∀ p ∈ vs, p.1 ≤ p.2 ∧ p.2 ≤ U64MAX) ∧
  vs.Pairwise fun p q => p.2 < q.1

def coveredV (vs : VirtSet) (x : Nat) : Prop :=
  ∃ p ∈ vs, p.1 ≤ x ∧ x ≤ p.2

/-- `set.gaps_trimmed(iu(lo))` starting the walk at `cur`: the maximal
uncovered intervals of `[cur, u64::MAX]`, in ascending order. -/
def gapsTrimmedFrom (cur : Nat) : VirtSet → List (Nat × Nat)
  | [] => if cur ≤ U64MAX then [(cur, U64MAX)] else []
  | (s, e) :: rest =>
    if e < cur then gapsTrimmedFrom cur rest
    else if cur < s then (cur, s - 1) :: gapsTrimmedFrom (e + 1) rest
    else gapsTrimmedFrom (e + 1) rest

def gaps_trimmed (vs : VirtSet) : List (Nat × Nat) :=
  gapsTrimmedFrom HIGHER_HALF vs

/-- The `find_map` over the gaps: the first gap that fits
`n_pages * S::SIZE` bytes from an `S`-aligned start, and the chosen byte
range. -/
def findGapRange (size nPages : Nat) : List (Nat × Nat) → Option (Nat × Nat)
  | [] => none
  | (gs, ge) :: rest =>
    if nextMultipleOf gs size + (nPages * size - 1) ≤ ge then
      some (nextMultipleOf gs size,
        nextMultipleOf gs size + (nPages * size - 1))
    else findGapRange size nPages rest

/-- `NoditSet::insert_merge_touching` of a range overlapping no member. -/
def insertMergeTouching (a b : Nat) : VirtSet → VirtSet
  | [] => [(a, b)]
  | (s, e) :: rest =>
    if e + 1 < a then (s, e) :: insertMergeTouching a b rest
    else if e + 1 = a then insertMergeTouching s b rest
    else if b + 1 = s then (a, e) :: rest
    else (a, b) :: (s, e) :: rest

/-- `VirtualMemory::allocate_contiguous_pages::<S>(n_pages)`.  In the
source, overflow of `n_pages * S::SIZE - 1` would panic before any range is
returned; the theorems therefore assume `0 < n_pages * size`. -/
def allocate_contiguous_pages (size nPages : Nat) (vs : VirtSet) :
    Option ((Nat × Nat) × VirtSet) :=
  (findGapRange size nPages (gaps_trimmed vs)).map fun r =>
    (r, insertMergeTouching r.1 r.2 vs)

/-- `AllocatedPages::unmap_and_deallocate` ends by cutting the byte range
back out of the set. -/
def cutSet (a b : Nat) : VirtSet → VirtSet
  | [] => []
  | (s, e) :: rest =>
    if e < a ∨ b < s then (s, e) :: cutSet a b rest
    else
      (if s < a then [(s, a - 1)] else []) ++
      (if b < e then [(b + 1, e)] else []) ++ cutSet a b rest

/-! ### Gap soundness -/

theorem gapsTrimmedFrom_sound {vs : VirtSet}
    (hb : ∀ p ∈ vs, p.1 ≤ p.2 ∧ p.2 ≤ U64MAX)
    (hpw : vs.Pairwise fun p q => p.2 < q.1) :
    ∀ cur, ∀ g ∈ gapsTrimmedFrom cur vs,
      cur ≤ g.1 ∧ g.1 ≤ g.2 ∧ g.2 ≤ U64MAX ∧
      ∀ p ∈ vs, ∀ x, g.1 ≤ x → x ≤ g.2 → ¬(p.1 ≤ x ∧ x ≤ p.2) := by
  induction vs with
  | nil =>
    intro cur g hg
    rw [gapsTrimmedFrom] at hg
    by_cases hcur : cur ≤ U64MAX
    · rw [if_pos hcur] at hg
      rcases List.mem_singleton.mp hg with rfl
      exact ⟨le_refl _, hcur, le_refl _, fun p hp => absurd hp (List.not_mem_nil _)⟩
    · rw [if_neg hcur] at hg
      cases hg
  | cons hd rest ih =>
    obtain ⟨s, e⟩ := hd
    intro cur g hg
    obtain ⟨hse, heM⟩ := hb (s, e) (List.mem_cons_self _ _)
    have hbrest : ∀ p ∈ rest, p.1 ≤ p.2 ∧ p.2 ≤ U64MAX :=
      fun p hp => hb p (List.mem_cons_of_mem _ hp)
    obtain ⟨hrel, hpwrest⟩ := List.pairwise_cons.mp hpw
    rw [gapsTrimmedFrom] at hg
    by_cases h1 : e < cur
    · rw [if_pos h1] at hg
      obtain ⟨hc, hgg, hgM, hun⟩ := ih hbrest hpwrest cur g hg
      refine ⟨hc, hgg, hgM, ?_⟩
      intro p hp x hx1 hx2
      rcases List.mem_cons.mp hp with rfl | hp'
      · intro ⟨ha, hb2⟩
        omega
      · exact hun p hp' x hx1 hx2
    · rw [if_neg h1] at hg
      by_cases h2 : cur < s
      · rw [if_pos h2] at hg
        rcases List.mem_cons.mp hg with rfl | hg'
        · refine ⟨le_refl _, by omega, by omega, ?_⟩
          intro p hp x hx1 hx2
          rcases List.mem_cons.mp hp with rfl | hp'
          · intro ⟨ha, hb2⟩
            have : x ≤ s - 1 := hx2
            omega
          · have h3 : e < p.1 := hrel p hp'
            intro ⟨ha, hb2⟩
            have : x ≤ s - 1 := hx2
            omega
        · obtain ⟨hc, hgg, hgM, hun⟩ := ih hbrest hpwrest (e + 1) g hg'
          refine ⟨by omega, hgg, hgM, ?_⟩
          intro p hp x hx1 hx2
          rcases List.mem_cons.mp hp with rfl | hp'
          · intro ⟨ha, hb2⟩
            omega
          · exact hun p hp' x hx1 hx2
      · rw [if_neg h2] at hg
        obtain ⟨hc, hgg, hgM, hun⟩ := ih hbrest hpwrest (e + 1) g hg
        refine ⟨by omega, hgg, hgM, ?_⟩
        intro p hp x hx1 hx2
        rcases List.mem_cons.mp hp with rfl | hp'
        · intro ⟨ha, hb2⟩
          omega
        · exact hun p hp' x hx1 hx2

theorem findGapRange_some {size nPages : Nat} (hsize : 0 < size)
    {gs : List (Nat × Nat)} {r : Nat × Nat}
    (h : findGapRange size nPages gs = some r) :
    ∃ g ∈ gs, r.1 = nextMultipleOf g.1 size ∧ g.1 ≤ r.1 ∧
      r.2 = r.1 + (nPages * size - 1) ∧ r.2 ≤ g.2 := by
  induction gs with
  | nil => cases h
  | cons g0 rest ih =>
    obtain ⟨gs0, ge0⟩ := g0
    rw [findGapRange] at h
    by_cases hfit : nextMultipleOf gs0 size + (nPages * size - 1) ≤ ge0
    · rw [if_pos hfit] at h
      obtain rfl := Option.some.inj h
      exact ⟨(gs0, ge0), List.mem_cons_self _ _, rfl,
        nextMultipleOf_ge gs0 hsize, rfl, hfit⟩
    · rw [if_neg hfit] at h
      obtain ⟨g, hm, hr⟩ := ih h
      exact ⟨g, List.mem_cons_of_mem _ hm, hr⟩

/-! ### Properties of `insertMergeTouching` (no-overlap precondition) -/

theorem imt_start_lb {a b c : Nat} {vs : VirtSet}
    (hm : ∀ p ∈ vs, c < p.1) (ha : c < a) :
    ∀ p ∈ insertMergeTouching a b vs, c < p.1 := by
  induction vs generalizing a with
  | nil =>
    intro p hp
    rcases List.mem_singleton.mp hp with rfl
    exact ha
  | cons hd rest ih =>
    obtain ⟨s, e⟩ := hd
    have hs : c < s := hm (s, e) (List.mem_cons_self _ _)
    have hmrest : ∀ p ∈ rest, c < p.1 :=
      fun p hp => hm p (List.mem_cons_of_mem _ hp)
    intro p hp
    rw [insertMergeTouching] at hp
    by_cases hc1 : e + 1 < a
    · rw [if_pos hc1] at hp
      rcases List.mem_cons.mp hp with rfl | hp'
      · exact hs
      · exact ih hmrest ha p hp'
    · rw [if_neg hc1] at hp
      by_cases hc2 : e + 1 = a
      · rw [if_pos hc2] at hp
        exact ih hmrest hs p hp
      · rw [if_neg hc2] at hp
        by_cases hc3 : b + 1 = s
        · rw [if_pos hc3] at hp
          rcases List.mem_cons.mp hp with rfl | hp'
          · exact ha
          · exact hmrest p hp'
        · rw [if_neg hc3] at hp
          rcases List.mem_cons.mp hp with rfl | hp'
          · exact ha
          · rcases List.mem_cons.mp hp' with rfl | hp2
            · exact hs
            · exact hmrest p hp2

theorem imt_wf {a b : Nat} {vs : VirtSet}
    (hb : ∀ p ∈ vs, p.1 ≤ p.2 ∧ p.2 ≤ U64MAX)
    (hpw : vs.Pairwise fun p q => p.2 < q.1)
    (hdisj : ∀ p ∈ vs, p.2 < a ∨ b < p.1) (hab : a ≤ b) (hbM : b ≤ U64MAX) :
    (∀ p ∈ insertMergeTouching a b vs, p.1 ≤ p.2 ∧ p.2 ≤ U64MAX) ∧
      (insertMergeTouching a b vs).Pairwise fun p q => p.2 < q.1 := by
  induction vs generalizing a with
  | nil =>
    constructor
    · intro p hp
      rcases List.mem_singleton.mp hp with rfl
      exact ⟨hab, hbM⟩
    · exact List.pairwise_singleton _ _
  | cons hd rest ih =>
    obtain ⟨s, e⟩ := hd
    obtain ⟨hse, heM⟩ := hb (s, e) (List.mem_cons_self _ _)
    have hbrest : ∀ p ∈ rest, p.1 ≤ p.2 ∧ p.2 ≤ U64MAX :=
      fun p hp => hb p (List.mem_cons_of_mem _ hp)
    obtain ⟨hrel, hpwrest⟩ := List.pairwise_cons.mp hpw
    have hdisjrest : ∀ p ∈ rest, p.2 < a ∨ b < p.1 :=
      fun p hp => hdisj p (List.mem_cons_of_mem _ hp)
    have hheaddisj : e < a ∨ b < s := hdisj (s, e) (List.mem_cons_self _ _)
    rw [insertMergeTouching]
    by_cases hc1 : e + 1 < a
    · rw [if_pos hc1]
      obtain ⟨ihb, ihpw⟩ := ih hbrest hpwrest hdisjrest hab
      have hlb : ∀ p ∈ insertMergeTouching a b rest, e < p.1 :=
        imt_start_lb hrel (by omega)
      constructor
      · intro p hp
        rcases List.mem_cons.mp hp with rfl | hp'
        · exact ⟨hse, heM⟩
        · exact ihb p hp'
      · exact List.pairwise_cons.mpr ⟨hlb, ihpw⟩
    · rw [if_neg hc1]
      by_cases hc2 : e + 1 = a
      · rw [if_pos hc2]
        have hdisj2 : ∀ p ∈ rest, p.2 < s ∨ b < p.1 := by
          intro p hpr
          have h1 : e < p.1 := hrel p hpr
          rcases hdisjrest p hpr with h | h
          · exfalso
            have := (hbrest p hpr).1
            omega
          · exact Or.inr h
        exact ih hbrest hpwrest hdisj2 (by omega)
      · rw [if_neg hc2]
        by_cases hc3 : b + 1 = s
        · rw [if_pos hc3]
          constructor
          · intro p hp
            rcases List.mem_cons.mp hp with rfl | hp'
            · exact ⟨by omega, heM⟩
            · exact hbrest p hp'
          · refine List.pairwise_cons.mpr ⟨?_, hpwrest⟩
            intro q hq
            have h9 : e < q.1 := hrel q hq
            show e < q.1
            omega
        · rw [if_neg hc3]
          have hsb : b < s := by
            rcases hheaddisj with h | h
            · omega
            · exact h
          constructor
          · intro p hp
            rcases List.mem_cons.mp hp with rfl | hp'
            · exact ⟨hab, hbM⟩
            · rcases List.mem_cons.mp hp' with rfl | hp2
              · exact ⟨hse, heM⟩
              · exact hbrest p hp2
          · refine List.pairwise_cons.mpr ⟨?_, hpw⟩
            intro q hq
            rcases List.mem_cons.mp hq with rfl | hq'
            · show b < s
              exact hsb
            · have h9 : e < q.1 := hrel q hq'
              show b < q.1
              omega

theorem imt_covers_new {a b : Nat} {vs : VirtSet}
    (hb : ∀ p ∈ vs, p.1 ≤ p.2 ∧ p.2 ≤ U64MAX)
    (hpw : vs.Pairwise fun p q => p.2 < q.1)
    (hdisj : ∀ p ∈ vs, p.2 < a ∨ b < p.1) :
    ∀ x, a ≤ x → x ≤ b → coveredV (insertMergeTouching a b vs) x := by
  induction vs generalizing a with
  | nil =>
    intro x hx1 hx2
    exact ⟨(a, b), List.mem_singleton.mpr rfl, hx1, hx2⟩
  | cons hd rest ih =>
    obtain ⟨s, e⟩ := hd
    obtain ⟨hse, heM⟩ := hb (s, e) (List.mem_cons_self _ _)
    have hbrest : ∀ p ∈ rest, p.1 ≤ p.2 ∧ p.2 ≤ U64MAX :=
      fun p hp => hb p (List.mem_cons_of_mem _ hp)
    obtain ⟨hrel, hpwrest⟩ := List.pairwise_cons.mp hpw
    have hdisjrest : ∀ p ∈ rest, p.2 < a ∨ b < p.1 :=
      fun p hp => hdisj p (List.mem_cons_of_mem _ hp)
    intro x hx1 hx2
    rw [insertMergeTouching]
    by_cases hc1 : e + 1 < a
    · rw [if_pos hc1]
      obtain ⟨p, hpm, hpc⟩ := ih hbrest hpwrest hdisjrest x hx1 hx2
      exact ⟨p, List.mem_cons_of_mem _ hpm, hpc⟩
    · rw [if_neg hc1]
      by_cases hc2 : e + 1 = a
      · rw [if_pos hc2]
        have hdisj2 : ∀ p ∈ rest, p.2 < s ∨ b < p.1 := by
          intro p hpr
          have h1 : e < p.1 := hrel p hpr
          rcases hdisjrest p hpr with h | h
          · exfalso
            have := (hbrest p hpr).1
            omega
          · exact Or.inr h
        exact ih hbrest hpwrest hdisj2 x (by omega) hx2
      · rw [if_neg hc2]
        by_cases hc3 : b + 1 = s
        · rw [if_pos hc3]
          exact ⟨(a, e), List.mem_cons_self _ _, hx1, by show x ≤ e; omega⟩
        · rw [if_neg hc3]
          exact ⟨(a, b), List.mem_cons_self _ _, hx1, hx2⟩

theorem imt_covers_old {a b : Nat} {vs : VirtSet}
    (hb : ∀ p ∈ vs, p.1 ≤ p.2 ∧ p.2 ≤ U64MAX)
    (hpw : vs.Pairwise fun p q => p.2 < q.1)
    (hdisj : ∀ p ∈ vs, p.2 < a ∨ b < p.1) (hab : a ≤ b) :
    ∀ x, coveredV vs x → coveredV (insertMergeTouching a b vs) x := by
  induction vs generalizing a with
  | nil =>
    intro x ⟨q, hq, h9⟩
    cases hq
  | cons hd rest ih =>
    obtain ⟨s, e⟩ := hd
    obtain ⟨hse, heM⟩ := hb (s, e) (List.mem_cons_self _ _)
    have hbrest : ∀ p ∈ rest, p.1 ≤ p.2 ∧ p.2 ≤ U64MAX :=
      fun p hp => hb p (List.mem_cons_of_mem _ hp)
    obtain ⟨hrel, hpwrest⟩ := List.pairwise_cons.mp hpw
    have hdisjrest : ∀ p ∈ rest, p.2 < a ∨ b < p.1 :=
      fun p hp => hdisj p (List.mem_cons_of_mem _ hp)
    intro x ⟨q, hq, hq1, hq2⟩
    rw [insertMergeTouching]
    by_cases hc1 : e + 1 < a
    · rw [if_pos hc1]
      rcases List.mem_cons.mp hq with rfl | hq'
      · exact ⟨(s, e), List.mem_cons_self _ _, hq1, hq2⟩
      · obtain ⟨p, hpm, hpc⟩ :=
          ih hbrest hpwrest hdisjrest hab x ⟨q, hq', hq1, hq2⟩
        exact ⟨p, List.mem_cons_of_mem _ hpm, hpc⟩
    · rw [if_neg hc1]
      by_cases hc2 : e + 1 = a
      · rw [if_pos hc2]
        have hdisj2 : ∀ p ∈ rest, p.2 < s ∨ b < p.1 := by
          intro p hpr
          have h1 : e < p.1 := hrel p hpr
          rcases hdisjrest p hpr with h | h
          · exfalso
            have := (hbrest p hpr).1
            omega
          · exact Or.inr h
        rcases List.mem_cons.mp hq with rfl | hq'
        · have hsx : s ≤ x := hq1
          have hxe : x ≤ e := hq2
          exact imt_covers_new hbrest hpwrest hdisj2 x hsx (by omega)
        · exact ih hbrest hpwrest hdisj2 (by omega) x ⟨q, hq', hq1, hq2⟩
      · rw [if_neg hc2]
        by_cases hc3 : b + 1 = s
        · rw [if_pos hc3]
          rcases List.mem_cons.mp hq with rfl | hq'
          · refine ⟨(a, e), List.mem_cons_self _ _, ?_, hq2⟩
            have h1 : s ≤ x := hq1
            show a ≤ x
            omega
          · exact ⟨q, List.mem_cons_of_mem _ hq', hq1, hq2⟩
        · rw [if_neg hc3]
          rcases List.mem_cons.mp hq with rfl | hq'
          · exact ⟨(s, e), List.mem_cons_of_mem _ (List.mem_cons_self _ _),
              hq1, hq2⟩
          · exact ⟨q, List.mem_cons_of_mem _ (List.mem_cons_of_mem _ hq'),
              hq1, hq2⟩

/-- Specification of a successful `allocate_contiguous_pages` call. -/
theorem allocate_contiguous_some_spec {size nPages : Nat}
    (hpos : 0 < nPages * size) {vs : VirtSet} (hwf : VirtSetWF vs)
    {r : Nat × Nat} {vs2 : VirtSet}
    (h : allocate_contiguous_pages size nPages vs = some (r, vs2)) :
    VirtSetWF vs2 ∧ HIGHER_HALF ≤ r.1 ∧ r.1 ≤ r.2 ∧ r.2 ≤ U64MAX ∧
    (∀ x, r.1 ≤ x → x ≤ r.2 → ¬ coveredV vs x) ∧
    (∀ x, r.1 ≤ x → x ≤ r.2 → coveredV vs2 x) ∧
    (∀ x, coveredV vs x → coveredV vs2 x) := by
  have hsize : 0 < size := by
    rcases Nat.eq_zero_or_pos size with h0 | h0
    · rw [h0, Nat.mul_zero] at hpos
      cases hpos
    · exact h0
  obtain ⟨hb, hpw⟩ := hwf
  unfold allocate_contiguous_pages at h
  cases hfind : findGapRange size nPages (gaps_trimmed vs) with
  | none => rw [hfind] at h; cases h
  | some r0 =>
    rw [hfind, Option.map_some'] at h
    obtain ⟨rfl, rfl⟩ := Prod.mk.injEq _ _ _ _ ▸ Option.some.inj h
    obtain ⟨g, hgm, hr1, hgr1, hr2, hr2g⟩ := findGapRange_some hsize hfind
    obtain ⟨hgHH, hg12, hgM, hgun⟩ :=
      gapsTrimmedFrom_sound hb hpw HIGHER_HALF g hgm
    have hr12 : r0.1 ≤ r0.2 := by
      rw [hr2]
      omega
    have huncov : ∀ x, r0.1 ≤ x → x ≤ r0.2 → ¬ coveredV vs x := by
      intro x hx1 hx2 ⟨p, hp, hp1, hp2⟩
      exact hgun p hp x (by omega) (by omega) ⟨hp1, hp2⟩
    have hdisj : ∀ p ∈ vs, p.2 < r0.1 ∨ r0.2 < p.1 := by
      intro p hp
      by_contra hno
      push_neg at hno
      obtain ⟨hn1, hn2⟩ := hno
      have hpb := (hb p hp).1
      refine huncov (max r0.1 p.1) (le_max_left _ _) (by omega) ?_
      exact ⟨p, hp, le_max_right _ _, by omega⟩
    obtain ⟨hwfb, hwfpw⟩ := imt_wf hb hpw hdisj hr12 (by omega)
    exact ⟨⟨hwfb, hwfpw⟩, by omega, hr12, by omega, huncov,
      imt_covers_new hb hpw hdisj,
      imt_covers_old hb hpw hdisj hr12⟩

/-! ### Sequences of virtual allocations (claim C2) -/

inductive VirtOp where
  | alloc (size nPages : Nat)
  | unmapAndDeallocate (a b : Nat)
  deriving DecidableEq, Repr

def stepVirt (vs : VirtSet) : VirtOp → VirtSet
  | .alloc size nPages =>
    match allocate_contiguous_pages size nPages vs with
    | some r => r.2
    | none => vs
  | .unmapAndDeallocate a b => cutSet a b vs

def runVirt (vs : VirtSet) (ops : List VirtOp) : VirtSet :=
  ops.foldl stepVirt vs

theorem runVirt_preserves {lo hi : Nat} (ops : List VirtOp)
    (hops : ∀ op ∈ ops, ∃ sz np, op = VirtOp.alloc sz np ∧ 0 < np * sz) :
    ∀ vs, VirtSetWF vs → (∀ x, lo ≤ x → x ≤ hi → coveredV vs x) →
      VirtSetWF (runVirt vs ops) ∧
      (∀ x, lo ≤ x → x ≤ hi → coveredV (runVirt vs ops) x) := by
  induction ops with
  | nil => exact fun vs hwf hpts => ⟨hwf, hpts⟩
  | cons op ops ih =>
    intro vs hwf hpts
    obtain ⟨sz, np, rfl, hpos⟩ := hops op (List.mem_cons_self _ _)
    have hopsrest : ∀ op ∈ ops, ∃ sz np, op = VirtOp.alloc sz np ∧ 0 < np * sz :=
      fun op hop => hops op (List.mem_cons_of_mem _ hop)
    rw [runVirt, List.foldl_cons]
    cases halloc : allocate_contiguous_pages sz np vs with
    | none =>
      have hstep : stepVirt vs (VirtOp.alloc sz np) = vs := by
        rw [stepVirt, halloc]
      rw [hstep]
      exact ih hopsrest vs hwf hpts
    | some r =>
      obtain ⟨r0, vs2⟩ := r
      have hstep : stepVirt vs (VirtOp.alloc sz np) = vs2 := by
        rw [stepVirt, halloc]
      rw [hstep]
      obtain ⟨hwf2, -, -, -, -, -, hmono⟩ :=
        allocate_contiguous_some_spec hpos hwf halloc
      exact ih hopsrest vs2 hwf2 fun x hx1 hx2 => hmono x (hpts x hx1 hx2)

/-- C2: every range returned by `allocate_contiguous_pages` lies entirely in
the higher half, and two successful calls with no deallocation between them
(all intervening operations are allocations) return disjoint byte ranges,
because each returned range is inserted into the reserved set before the
call returns. -/
theorem c2_virtual_ranges_higher_half_and_disjoint
    (vs1 : VirtSet) (hwf : VirtSetWF vs1)
    (size1 n1 : Nat) (hpos1 : 0 < n1 * size1)
    (r1 : Nat × Nat) (vs1b : VirtSet)
    (h1 : allocate_contiguous_pages size1 n1 vs1 = some (r1, vs1b))
    (mid : List VirtOp)
    (hmid : ∀ op ∈ mid, ∃ sz np, op = VirtOp.alloc sz np ∧ 0 < np * sz)
    (size2 n2 : Nat) (hpos2 : 0 < n2 * size2)
    (r2 : Nat × Nat) (vs2b : VirtSet)
    (h2 : allocate_contiguous_pages size2 n2 (runVirt vs1b mid) =
      some (r2, vs2b)) :
    HIGHER_HALF ≤ r1.1 ∧ r1.1 ≤ r1.2 ∧
    HIGHER_HALF ≤ r2.1 ∧ r2.1 ≤ r2.2 ∧
    (r1.2 < r2.1 ∨ r2.2 < r1.1) := by
  obtain ⟨hwf1, hHH1, h112, -, -, hcov1, -⟩ :=
    allocate_contiguous_some_spec hpos1 hwf h1
  obtain ⟨hwfr, hcovr⟩ := @runVirt_preserves r1.1 r1.2 mid hmid vs1b hwf1 hcov1
  obtain ⟨-, hHH2, h212, -, huncov2, -, -⟩ :=
    allocate_contiguous_some_spec hpos2 hwfr h2
  refine ⟨hHH1, h112, hHH2, h212, ?_⟩
  by_contra hno
  push_neg at hno
  obtain ⟨hd1, hd2⟩ := hno
  refine huncov2 (max r1.1 r2.1) (le_max_right _ _) (by omega) ?_
  exact hcovr (max r1.1 r2.1) (le_max_left _ _) (by omega)

/-- Closed instance of `c2_virtual_ranges_higher_half_and_disjoint`: two
one-page allocations from an empty set return
[0xffff800000000000, +0xFFF] and [0xffff800000001000, +0xFFF]. -/
theorem c2_virtual_ranges_witness :
    HIGHER_HALF ≤ 0xffff800000000000 ∧
    ((0xffff800000000FFF : Nat) < 0xffff800000001000 ∨
      (0xffff800000001FFF : Nat) < 0xffff800000000000) := by
  have h := c2_virtual_ranges_higher_half_and_disjoint
    [] ⟨fun p hp => absurd hp (List.not_mem_nil _), List.Pairwise.nil⟩
    0x1000 1 (by norm_num)
    (0xffff800000000000, 0xffff800000000FFF)
    [(0xffff800000000000, 0xffff800000000FFF)]
    (by decide)
    [] (fun op hop => absurd hop (List.not_mem_nil _))
    0x1000 1 (by norm_num)
    (0xffff800000001000, 0xffff800000001FFF)
    [(0xffff800000000000, 0xffff800000001FFF)]
    (by decide)
  exact ⟨h.1, h.2.2.2.2⟩

end RustOsTutorial
